import Mathlib

/-!
Verification of the mcu-debug helper process (packages/mcu-debug-helper).

This file gives a shallow embedding, in Lean 4, of the parts of the Rust
source that the specification's claims are about:

* `symbols.rs`        — `SymbolTable` over a `BTreeMap<u64, Symbol>`;
* `get_assembly.rs`   — `AssemblyListing`, `insert_line`, `get_window`, and
                        the objdump text parsing loop of `get_disasm_from_objdump`;
* `disasm_worker.rs`  — the worker's before/after computation and its
                        sequential event structure;
* `main.rs`           — `process_dwarf_entry` (subprogram and variable arms)
                        and the ELF symbol pass of `load_elf_info`;
* `elf_items.rs`      — `StaticFileMapping` and `AddrtoLineInfo`;
* `utils.rs`          — `canonicalize_path`.

Modelling conventions.

* Machine integers are `Nat` (for `u64`/`usize`/`u32`) or `Int` (for
  `i32`/`i64`), with wrap-around written explicitly as `% 2 ^ w` where the
  release-profile Rust semantics wraps.  The crate sets no `overflow-checks`
  flag, so the shipped (release) binary wraps on arithmetic overflow; debug
  builds would panic at the same spots, so every divergence recorded below
  exists in both profiles.
* Code that can panic in every profile (slice/`Vec` indexing out of bounds,
  `expect`/`unwrap` on an empty collection) is modelled in `Option`, with
  `none` for the panic.
* A Rust `BTreeMap<u64, V>` is modelled as an association list sorted
  strictly by key (`btmInsert` keeps it sorted and overwrites duplicates);
  `range`-based iteration is modelled by filtering that sorted list.
* `Rc`/`Arc` shared ownership is modelled by value: a "shared copy" of a
  symbol is the same record value.  `Cell` interior mutability on assembly
  lines is modelled by rebuilding the line record.
* External crates (gimli attribute decoding, demangling, objdump spawning,
  the filesystem behind `dunce::canonicalize` and `env::current_dir`) are
  modelled as parameters: the demangler is a `String → String` argument, the
  objdump output is a list of already-read lines, and `canonicalize_path`
  takes a `PathEnv` describing the OS flag, the current directory and the
  filesystem-resolution oracle.
-/

namespace McuDebug

/-- Wrap-around modulus of the 64-bit machine words (`u64`, `usize`). -/
def U64 : Nat := 2 ^ 64

/-- Truncating cast to `i32` (Rust `as i32`): reduce mod `2^32`, reinterpret
the top bit as a sign. -/
def toI32 (n : Nat) : Int :=
  if n % 2 ^ 32 < 2 ^ 31 then ((n % 2 ^ 32 : Nat) : Int)
  else ((n % 2 ^ 32 : Nat) : Int) - 2 ^ 32

/-! ### Model of `std::collections::BTreeMap<u64, V>`

A `BTreeMap` is an ordered map; we model it as an association list whose
keys are strictly increasing.  `btmInsert` inserts in key order and
overwrites an existing key, exactly the semantics of `BTreeMap::insert`. -/

/-- Insert into a key-sorted association list, overwriting an equal key
(model of `BTreeMap::insert`). -/
def btmInsert {α : Type} (k : Nat) (v : α) : List (Nat × α) → List (Nat × α)
  | [] => [(k, v)]
  | (k0, v0) :: rest =>
    if k < k0 then (k, v) :: (k0, v0) :: rest
    else if k = k0 then (k, v) :: rest
    else (k0, v0) :: btmInsert k v rest

/-- Point lookup (model of `BTreeMap::get`). -/
def btmLookup {α : Type} (k : Nat) : List (Nat × α) → Option α
  | [] => none
  | (k0, v0) :: rest => if k = k0 then some v0 else btmLookup k rest

/-- Model of `map.range(..=t).next_back()`: the entry with the greatest key
`≤ t` of a key-sorted map. -/
def btmPrevLE {α : Type} (t : Nat) (m : List (Nat × α)) : Option (Nat × α) :=
  (m.filter (fun p => p.1 ≤ t)).getLast?

/-- Model of `map.range(..=t).rev().take(n)`, keeping the values: the values
of the entries with key `≤ t`, from the greatest key downwards, at most `n`
of them. -/
def btmRevTakeLE {α : Type} (t : Nat) (n : Nat) (m : List (Nat × α)) : List α :=
  (((m.filter (fun p => p.1 ≤ t)).reverse).take n).map (fun p => p.2)

/-- Model of `map.range(lo..).take(n)`, keeping the values. -/
def btmTakeGE {α : Type} (lo : Nat) (n : Nat) (m : List (Nat × α)) : List α :=
  ((m.filter (fun p => lo ≤ p.1)).take n).map (fun p => p.2)

/-- Sortedness invariant of the `BTreeMap` model: keys strictly increase. -/
def btmSorted {α : Type} (m : List (Nat × α)) : Prop :=
  m.Pairwise (fun p q => p.1 < q.1)

/-! ### `symbols.rs` — `Symbol` and `SymbolTable` -/

/-- `SymbolType` from `symbols.rs`. -/
inductive SymbolType
  | Function
  | Data
  | Unknown
deriving DecidableEq

/-- `SymbolScope` from `symbols.rs`. -/
inductive SymbolScope
  | Global
  | Static
  | Unknown
deriving DecidableEq

/-- `Symbol` from `symbols.rs`.  `address` and `size` are `u64` values. -/
structure Symbol where
  name : String
  address : Nat
  size : Nat
  kind : SymbolType
  scope : SymbolScope
deriving DecidableEq

/-- Association-list model of `HashMap<String, V>` insertion (overwrite on
an equal key; order is irrelevant for point lookups). -/
def hmInsert {α : Type} (k : String) (v : α) : List (String × α) → List (String × α)
  | [] => [(k, v)]
  | (k0, v0) :: rest => if k = k0 then (k, v) :: rest else (k0, v0) :: hmInsert k v rest

/-- Point lookup in the `HashMap` model. -/
def hmLookup {α : Type} (k : String) : List (String × α) → Option α
  | [] => none
  | (k0, v0) :: rest => if k = k0 then some v0 else hmLookup k rest

/-- `SymbolTable` from `symbols.rs`: a `BTreeMap<u64, Arc<Symbol>>` by start
address and a `HashMap<String, Arc<Symbol>>` by name. -/
structure SymbolTable where
  symbols_by_addr : List (Nat × Symbol)
  symbols_by_name : List (String × Symbol)

/-- `SymbolTable::new`. -/
def SymbolTable.new : SymbolTable :=
  { symbols_by_addr := [], symbols_by_name := [] }

/-- `SymbolTable::insert`: overwrites on a duplicate start address and on a
duplicate name. -/
def SymbolTable.insert (t : SymbolTable) (symbol : Symbol) : SymbolTable :=
  { symbols_by_addr := btmInsert symbol.address symbol t.symbols_by_addr
    symbols_by_name := hmInsert symbol.name symbol t.symbols_by_name }

/-- `SymbolTable::lookup`: take the entry with the greatest start address
`≤ address`; return its symbol when the address falls inside the symbol's
size (the `start_addr + symbol.size` addition wraps as `u64` does in a
release build), or when the size is `0` and the address matches exactly. -/
def SymbolTable.lookup (t : SymbolTable) (address : Nat) : Option Symbol :=
  match btmPrevLE address t.symbols_by_addr with
  | none => none
  | some (start_addr, symbol) =>
    if symbol.size > 0 ∧ address < (start_addr + symbol.size) % U64 then some symbol
    else if symbol.size = 0 ∧ address = start_addr then some symbol
    else none

/-- `SymbolTable::get_by_name`. -/
def SymbolTable.get_by_name (t : SymbolTable) (name : String) : Option Symbol :=
  hmLookup name t.symbols_by_name

/-- Well-formedness of a symbol table: the address index is key-sorted, each
entry is stored under its symbol's address, and addresses and sizes are
in-range `u64` values.  Every table built by `insert` from `new` satisfies
this. -/
def SymbolTable.WF (t : SymbolTable) : Prop :=
  btmSorted t.symbols_by_addr ∧
  ∀ p ∈ t.symbols_by_addr, p.1 = p.2.address ∧ p.2.address < U64 ∧ p.2.size < U64

/-- Symbol `[0x100, 0x200)` used by the `C7` counterexample. -/
def symA : Symbol :=
  { name := "A", address := 0x100, size := 0x100
    kind := SymbolType.Function, scope := SymbolScope.Global }

/-- Size-0 marker symbol at `0x180` used by the `C7` counterexample. -/
def symB : Symbol :=
  { name := "B", address := 0x180, size := 0
    kind := SymbolType.Data, scope := SymbolScope.Global }

/-- The two-symbol table of the `C7` counterexample. -/
def tblAB : SymbolTable := (SymbolTable.new.insert symA).insert symB

/-- Data symbol used by the `C7` witness. -/
def symW : Symbol :=
  { name := "w", address := 0x100, size := 0x10
    kind := SymbolType.Data, scope := SymbolScope.Global }

/-! ### `get_assembly.rs` — `AssemblyLine`, `AssemblyListing`, `get_window`

Strings of the assembly module are modelled as `List Char` because the
objdump parsing loop (for claim C8) works character by character.  The
`Cell<i32>` fields are plain `Int` fields; a `set_source_info` write
rebuilds the record. -/

/-- `AssemblyLine` from `get_assembly.rs`. -/
structure AssemblyLine where
  address : Nat
  bytes : List Char
  instruction : List Char
  raw_line : List Char
  offset_in_function : Nat
  function_id : Int
  file_id : Int
  start_line : Int
  start_column : Int
  end_line : Int
  end_column : Int
deriving DecidableEq

/-- `AssemblyLine::new`: all source-info fields start at `-1`. -/
def AssemblyLine.new (address : Nat) (bytes instruction raw_line : List Char)
    (function_id : Int) (offset_in_function : Nat) : AssemblyLine :=
  { address := address, bytes := bytes, instruction := instruction
    raw_line := raw_line, offset_in_function := offset_in_function
    function_id := function_id, file_id := -1, start_line := -1
    start_column := -1, end_line := -1, end_column := -1 }

/-- `AssemblyLine::set_source_info` (a `Cell` write in the source). -/
def AssemblyLine.set_source_info (l : AssemblyLine) (file_id start_line
    start_column end_line end_column : Int) : AssemblyLine :=
  { l with file_id := file_id, start_line := start_line
           start_column := start_column, end_line := end_line
           end_column := end_column }

/-- `AssemblyBlock` from `get_assembly.rs`.  `lines` holds (value copies of)
the `Rc` line references. -/
structure AssemblyBlock where
  name : List Char
  id : Int
  start_address : Nat
  lines : List AssemblyLine
deriving DecidableEq

/-- `AssemblyBlock::new`. -/
def AssemblyBlock.new (name : List Char) (start_address : Nat) (id : Int) :
    AssemblyBlock :=
  { name := name, id := id, start_address := start_address, lines := [] }

/-- `AssemblyListing` from `get_assembly.rs`: the ordered line vector, the
address→index `BTreeMap`, and the block vector. -/
structure AssemblyListing where
  lines : List AssemblyLine
  addr_map : List (Nat × Nat)
  blocks : List AssemblyBlock
deriving DecidableEq

/-- `AssemblyListing::new`. -/
def AssemblyListing.new : AssemblyListing :=
  { lines := [], addr_map := [], blocks := [] }

/-- `AssemblyListing::insert_line`. -/
def AssemblyListing.insert_line (L : AssemblyListing) (line : AssemblyLine) :
    AssemblyListing :=
  { L with addr_map := btmInsert line.address L.lines.length L.addr_map
           lines := L.lines ++ [line] }

/-- The dummy line built at the top of `get_window` (`<invalid instr>`). -/
def dummy_instr : AssemblyLine :=
  AssemblyLine.new 0 [] ("<invalid instr>".toList) [] (-1) 0

/-- The front-padding loop of `get_window`: push `k` copies of the dummy at
addresses `tmp_addr - 2`, `tmp_addr - 4`, … (wrapping `u64` subtraction). -/
def padDown (k : Nat) (tmp_addr : Nat) : List AssemblyLine :=
  match k with
  | 0 => []
  | Nat.succ k0 =>
    ({ dummy_instr with address := (tmp_addr + U64 - 2) % U64 }) ::
      padDown k0 ((tmp_addr + U64 - 2) % U64)

/-- The tail-padding loop of `get_window`: push `k` copies of the dummy at
addresses `tmp_addr + 2`, `tmp_addr + 4`, … (wrapping `u64` addition). -/
def padUp (k : Nat) (tmp_addr : Nat) : List AssemblyLine :=
  match k with
  | 0 => []
  | Nat.succ k0 =>
    ({ dummy_instr with address := (tmp_addr + 2) % U64 }) ::
      padUp k0 ((tmp_addr + 2) % U64)

/-- Resolve a list of `addr_map` indexes through `lines`, failing (`none`,
the `expect` panic) if any index is out of range. -/
def resolveIndexes (lines : List AssemblyLine) : List Nat → Option (List AssemblyLine)
  | [] => some []
  | ix :: rest =>
    match lines.get? ix, resolveIndexes lines rest with
    | some l, some ls => some (l :: ls)
    | _, _ => none

/-- The `before > 0` arm of `get_window` (source lines 184–215).  Collects
up to `before + 1` lines at addresses `≤ start_addr` from the greatest
down, reads `before_instrs[0].address` (panic if empty — cannot happen,
the anchor is always collected), pads the tail of the reversed-order list
with dummies at decreasing addresses, then reverses to ascending order. -/
def windowBefore (L : AssemblyListing) (start_addr : Nat) (before : Nat) :
    Option (List AssemblyLine) :=
  let before_indices := btmRevTakeLE start_addr (before + 1) L.addr_map
  match resolveIndexes L.lines before_indices with
  | none => none
  | some before_instrs =>
    match before_instrs.head? with
    | none => none
    | some first =>
      some (((before_instrs ++
        padDown (before + 1 - before_instrs.length) first.address)).reverse)

/-- The `after > 0` arm of `get_window` (source lines 217–243).  Collects up
to `after` lines at addresses `> start_addr`, then reads
`after_instrs[after_instrs.len() - 1].address` — which *panics* when no
line follows the anchor — and pads with dummies at increasing addresses. -/
def windowAfter (L : AssemblyListing) (start_addr : Nat) (after : Nat) :
    Option (List AssemblyLine) :=
  let after_indices := btmTakeGE ((start_addr + 1) % U64) after L.addr_map
  match resolveIndexes L.lines after_indices with
  | none => none
  | some after_instrs =>
    match after_instrs.getLast? with
    | none => none
    | some last =>
      some (after_instrs ++ padUp (after - after_instrs.length) last.address)

/-- `AssemblyListing::get_window`.  `none` models a panic. -/
def AssemblyListing.get_window (L : AssemblyListing) (target_addr : Nat)
    (before after : Nat) : Option (List AssemblyLine) :=
  match btmPrevLE target_addr L.addr_map with
  | none => some []
  | some sa =>
    match (if 0 < before then windowBefore L sa.1 before else some []) with
    | none => none
    | some rb =>
      match (if 0 < after then windowAfter L sa.1 after else some []) with
      | none => none
      | some ra => some (rb ++ ra)

/-- The two-line listing of the specification's Scenario A: `movs` at
`0x1000` and `adds` at `0x1002`, built through `insert_line`. -/
def scenarioA : AssemblyListing :=
  (AssemblyListing.new.insert_line
      (AssemblyLine.new 0x1000 ("00 20".toList) ("movs r0,#0".toList)
        (" 1000: 00 20 movs r0,#0".toList) (-1) 0)).insert_line
    (AssemblyLine.new 0x1002 ("01 30".toList) ("adds r0,r1".toList)
      (" 1002: 01 30 adds r0,r1".toList) (-1) 0)

/-- The one-line listing used by the C10 failing input. -/
def oneLineListing : AssemblyListing :=
  AssemblyListing.new.insert_line
    (AssemblyLine.new 0x1000 ("00 20".toList) ("movs r0,#0".toList)
      (" 1000: 00 20 movs r0,#0".toList) (-1) 0)

/-! ### `elf_items.rs` and `memory.rs` — the object-info aggregate -/

/-- `MemoryRegion` from `memory.rs`. -/
structure MemoryRegion where
  name : String
  start : Nat
  size : Nat
  align : Nat
deriving DecidableEq

/-- `FileTable` from `elf_items.rs` (the id↔path maps; the `intern`
operation is not needed by the claims under verification). -/
structure FileTable where
  files_by_id : List (Nat × String)
  id_by_file : List (String × Nat)
  next_id : Nat
deriving DecidableEq

/-- `FileTable::new`. -/
def FileTable.new : FileTable :=
  { files_by_id := [], id_by_file := [], next_id := 1 }

/-- `FileTable::get_by_id`. -/
def FileTable.get_by_id (t : FileTable) (id : Nat) : Option String :=
  btmLookup id t.files_by_id

/-- `LineInfoEntry` from `elf_items.rs` (`line` holds `NonZero<u64>`
values). -/
structure LineInfoEntry where
  file_id : Nat
  line : List Nat
deriving DecidableEq

/-- `AddrtoLineInfo` from `elf_items.rs`. -/
structure AddrtoLineInfo where
  entries : List (Nat × LineInfoEntry)
deriving DecidableEq

/-- `AddrtoLineInfo::new`. -/
def AddrtoLineInfo.new : AddrtoLineInfo := { entries := [] }

/-- `AddrtoLineInfo::append_or_insert`: appending keeps the entry's original
`file_id` and only grows the line list. -/
def AddrtoLineInfo.append_or_insert (m : AddrtoLineInfo) (address : Nat)
    (file_id : Nat) (line : Nat) : AddrtoLineInfo :=
  match btmLookup address m.entries with
  | some entry =>
    { entries := btmInsert address
        { file_id := entry.file_id, line := entry.line ++ [line] } m.entries }
  | none =>
    { entries := btmInsert address { file_id := file_id, line := [line] } m.entries }

/-- `StaticFileMapping` from `elf_items.rs`: a `HashMap` from a (canonical
path) string key to the symbols filed under it. -/
structure StaticFileMapping where
  file_map : List (String × List Symbol)
deriving DecidableEq

/-- `StaticFileMapping::new`. -/
def StaticFileMapping.new : StaticFileMapping := { file_map := [] }

/-- `StaticFileMapping::insert`: push onto the existing bucket, or open a
new one. -/
def StaticFileMapping.insert (m : StaticFileMapping) (file_path : String)
    (symbol : Symbol) : StaticFileMapping :=
  match hmLookup file_path m.file_map with
  | some existing => { file_map := hmInsert file_path (existing ++ [symbol]) m.file_map }
  | none => { file_map := hmInsert file_path [symbol] m.file_map }

/-- `ObjectInfo` from `elf_items.rs`. -/
structure ObjectInfo where
  addr_to_line : AddrtoLineInfo
  dwarf_symbols : SymbolTable
  file_table : FileTable
  memory_ranges : List MemoryRegion
  elf_symbols : SymbolTable
  static_file_mapping : StaticFileMapping
  global_symbols : List Symbol
  rtt_symbol_address : Option Nat

/-- `ObjectInfo::new`. -/
def ObjectInfo.new : ObjectInfo :=
  { addr_to_line := AddrtoLineInfo.new, dwarf_symbols := SymbolTable.new
    file_table := FileTable.new, memory_ranges := []
    elf_symbols := SymbolTable.new, static_file_mapping := StaticFileMapping.new
    global_symbols := [], rtt_symbol_address := none }

/-! ### `main.rs` — `process_dwarf_entry`

The gimli attribute extraction and the demanglers are external libraries;
a DIE is therefore modelled by what that extraction yields: the demangled
name (linkage name preferred), the optional `DW_AT_low_pc` address, and the
shape of the `DW_AT_high_pc` attribute. -/

/-- Shape of the `DW_AT_high_pc` attribute value. -/
inductive DwarfHighPc
  | addr (a : Nat)
  | udata (size : Nat)
  | otherAttr
  | absent
deriving DecidableEq

/-- A first-level DIE as seen by `process_dwarf_entry`. -/
inductive DwarfDie
  | subprogram (name : String) (low_opt : Option Nat) (high : DwarfHighPc)
  | var (name : String)
  | otherTag
deriving DecidableEq

/-- Fall-through tail of the subprogram arm (source `main.rs:130-157`).  In
the source this point is reached only when `low_opt` is `None`, because both
arms of the preceding `if let Some(low)` return early; it is kept verbatim,
including the `high_pc`/`saturating_sub`/insert logic that this makes
unreachable. -/
def process_subprogram_tail (name : String) (low_opt : Option Nat)
    (high_attr : DwarfHighPc) (info : ObjectInfo) : ObjectInfo :=
  let high_opt : Option Nat :=
    match high_attr with
    | DwarfHighPc.addr a => some a
    | DwarfHighPc.udata size =>
      match low_opt with
      | some low => some ((low + size) % U64)
      | none => none
    | _ => none
  match low_opt, high_opt with
  | some low, some high =>
    let size := high - low
    let sym : Symbol :=
      { name := name, address := low, size := size
        kind := SymbolType.Function, scope := SymbolScope.Global }
    if size > 0 then
      { info with dwarf_symbols := info.dwarf_symbols.insert sym }
    else info
  | _, _ => info

/-- `process_dwarf_entry` from `main.rs` (source lines 82–216), with the
timing statistics dropped.  The subprogram arm: when `low_pc` is present,
either shared-copy the covering ELF symbol into the DWARF store or skip;
only when `low_pc` is absent does control fall through to the
`high_pc`-based insertion.  The variable arm: look the demangled name up in
the ELF store by name; on a Data hit, shared-copy into the DWARF store and
file it — a Static symbol is filed in `static_file_mapping` under
`arc_sym.name` (the symbol's own name), a Global symbol is pushed onto
`global_symbols`. -/
def process_dwarf_entry (entry : DwarfDie) (info : ObjectInfo) : ObjectInfo :=
  match entry with
  | DwarfDie.subprogram name low_opt high_attr =>
    match low_opt with
    | some low =>
      match info.elf_symbols.lookup low with
      | some existing_sym =>
        { info with dwarf_symbols := info.dwarf_symbols.insert existing_sym }
      | none => info
    | none => process_subprogram_tail name none high_attr info
  | DwarfDie.var name =>
    match info.elf_symbols.get_by_name name with
    | some existing_sym =>
      let arc_sym := existing_sym
      let info2 := { info with dwarf_symbols := info.dwarf_symbols.insert arc_sym }
      if arc_sym.kind = SymbolType.Data then
        if arc_sym.scope = SymbolScope.Static then
          { info2 with static_file_mapping :=
              info2.static_file_mapping.insert arc_sym.name arc_sym }
        else if arc_sym.scope = SymbolScope.Global then
          { info2 with global_symbols := info2.global_symbols ++ [arc_sym] }
        else info2
      else info2
    | none => info
  | DwarfDie.otherTag => info

/-- The ELF Data symbol of Static scope used by the C4 failing input
(`counter` at `0x2000_0000`). -/
def symCounter : Symbol :=
  { name := "counter", address := 0x20000000, size := 4
    kind := SymbolType.Data, scope := SymbolScope.Static }

/-- The object info at the C4 failing input: the ELF store holds
`symCounter`, everything else is empty. -/
def infoC4 : ObjectInfo :=
  { ObjectInfo.new with elf_symbols := SymbolTable.new.insert symCounter }

/-! ### `disasm_worker.rs` — the request arithmetic and the worker's
sequential event structure -/

/-- The `before` computation of `serve_disassembly_requests`
(`disasm_worker.rs:118-122`): `instr_offset.abs() as usize` for a negative
offset, else `0`.  (`i64::MIN.abs()` wraps to `i64::MIN` in release and its
`usize` cast is `2^63`, which equals `natAbs`.) -/
def worker_before (instr_offset : Int) : Nat :=
  if instr_offset < 0 then instr_offset.natAbs % U64 else 0

/-- The `after` computation (`disasm_worker.rs:124`):
`req.instr_count as usize - before`, a wrapping `usize` subtraction with no
clamp. -/
def worker_after (instr_count : Nat) (before : Nat) : Nat :=
  (instr_count % U64 + U64 - before % U64) % U64

/-- The three readiness notifications of `helper_requests.rs`'s
`HelperEvent` exercised by the startup path (`session_id` is the constant
`"local-session"`; the RTT address and the instruction count are the
payloads that vary). -/
inductive HelperEvt
  | RTTFound (address : Nat)
  | SymbolTableReady
  | DisassemblyReady (instruction_count : Nat)
deriving DecidableEq

/-- An ELF symbol as surfaced by the `object` crate in the symbol loop of
`load_elf_info` (`main.rs:263-302`): the (possibly undecodable) name, the
raw kind, the scope flags, address and size. -/
structure RawElfSymbol where
  name : Option String
  kind : SymbolType
  is_global : Bool
  is_local : Bool
  address : Nat
  size : Nat

/-- One iteration of the ELF symbol loop of `load_elf_info`: skip symbols
with no name or with a kind other than Text/Data (the raw kind is given
already mapped: Text ↦ Function, Data ↦ Data, other ↦ Unknown); insert the
demangled symbol into the ELF store; on `_SEGGER_RTT`/`SEGGER_RTT` Data
symbols, record the RTT address and emit `RTTFound`. -/
def elf_symbol_step (dm : String → String) (acc : ObjectInfo × List HelperEvt)
    (symbol : RawElfSymbol) : ObjectInfo × List HelperEvt :=
  match symbol.name with
  | none => acc
  | some name =>
    if symbol.kind = SymbolType.Unknown then acc
    else
      let kind := symbol.kind
      let scope :=
        if symbol.is_global then SymbolScope.Global
        else if symbol.is_local then SymbolScope.Static
        else SymbolScope.Unknown
      let is_data := kind = SymbolType.Data
      let dname := dm name
      let sym : Symbol :=
        { name := dname, address := symbol.address, size := symbol.size
          kind := kind, scope := scope }
      let info := { acc.1 with elf_symbols := acc.1.elf_symbols.insert sym }
      if (dname = "_SEGGER_RTT" ∨ dname = "SEGGER_RTT") ∧ is_data then
        ({ info with rtt_symbol_address := some symbol.address },
          acc.2 ++ [HelperEvt.RTTFound symbol.address])
      else (info, acc.2)

/-- The ELF symbol pass of `load_elf_info`, folded over the object file's
symbols, returning the object info and the events written to the transport
during the pass. -/
def elf_symbol_pass (dm : String → String) (syms : List RawElfSymbol) :
    ObjectInfo × List HelperEvt :=
  syms.foldl (elf_symbol_step dm) (ObjectInfo.new, [])

/-- The events the main thread writes, in order (`main.rs:501-571`): the
`RTTFound` notifications during `load_elf_info`, then — after sorting and
sending the object info to the worker — `SymbolTableReady`. -/
def main_events (dm : String → String) (syms : List RawElfSymbol) : List HelperEvt :=
  (elf_symbol_pass dm syms).2 ++ [HelperEvt.SymbolTableReady]

/-- Per-entry minimum and maximum of the annotation pass
(`disasm_worker.rs:70-80`): an `i32` fold starting from
`i32::MAX`/`i32::MIN` over the truncated line numbers. -/
def line_min_max (entry_lines : List Nat) : Int × Int :=
  entry_lines.foldl
    (fun mm line =>
      let line_num := toI32 line
      (if line_num < mm.1 then line_num else mm.1,
        if line_num > mm.2 then line_num else mm.2))
    (2 ^ 31 - 1, -(2 ^ 31))

/-- The source-line annotation pass of `run_disassembly_worker`
(`disasm_worker.rs:65-83`): for each address→line entry, find the listing
line at that exact address and stamp its source info (`file_id`, min line,
max line, columns `-1`).  The `Cell` writes through the shared `Rc` are
modelled by updating the `lines` vector. -/
def annotate_listing (listing : AssemblyListing) (info : ObjectInfo) :
    AssemblyListing :=
  info.addr_to_line.entries.foldl
    (fun L p =>
      match btmLookup p.1 L.addr_map with
      | none => L
      | some index =>
        match L.lines.get? index with
        | none => L
        | some line_info =>
          let mm := line_min_max p.2.line
          let stamped := line_info.set_source_info (toI32 p.2.file_id) mm.1 (-1) mm.2 (-1)
          { L with lines := L.lines.set index stamped })
    listing

/-- Observable steps of the worker thread, in program order. -/
inductive WorkerStep
  | emit (e : HelperEvt)
  | recvObjectInfo
  | annotateDone
  | serveRequests
deriving DecidableEq

/-- The sequential structure of `run_disassembly_worker`
(`disasm_worker.rs:28-100`): on a parse failure, only a diagnostic; on
success, *first* send `DisassemblyReady` with the line count, then block on
the object-info channel, run the annotation pass (or skip it if the channel
closed), then serve requests. -/
def run_disassembly_worker (listing_result : Option AssemblyListing)
    (obj_info_rx : Option ObjectInfo) : List WorkerStep × Option AssemblyListing :=
  match listing_result with
  | none => ([], none)
  | some listing =>
    let sent := [WorkerStep.emit (HelperEvt.DisassemblyReady listing.lines.length)]
    match obj_info_rx with
    | some info =>
      (sent ++ [WorkerStep.recvObjectInfo, WorkerStep.annotateDone,
        WorkerStep.serveRequests], some (annotate_listing listing info))
    | none =>
      (sent ++ [WorkerStep.serveRequests], some listing)

/-! ### `get_assembly.rs` — the objdump text parsing loop (claim C8)

The loop body of `get_disasm_from_objdump` (source lines 269–361) is
modelled over the list of lines read from the subprocess's stdout, each
already split at `\n` and with trailing CR/LF popped (the `read_until`
prologue).  Character-level helpers mirror the `str` methods used. -/

/-- Rust `str::trim` on the left (ASCII/controls whitespace as in
`Char.isWhitespace`). -/
def trimLeading : List Char → List Char
  | [] => []
  | c :: rest => if c.isWhitespace then trimLeading rest else c :: rest

/-- Rust `str::trim`. -/
def trimChars (l : List Char) : List Char :=
  (trimLeading (trimLeading l).reverse).reverse

/-- Rust `str::split(sep)` producing all (possibly empty) fields. -/
def splitOnChar (sep : Char) : List Char → List (List Char)
  | [] => [[]]
  | c :: rest =>
    let r := splitOnChar sep rest
    if c = sep then [] :: r
    else
      match r with
      | [] => [[c]]
      | s :: ss => (c :: s) :: ss

/-- Rust `[str]::join(sep)` for a one-character separator. -/
def joinChar (sep : Char) : List (List Char) → List Char
  | [] => []
  | [s] => s
  | s :: rest => s ++ sep :: joinChar sep rest

/-- Split at every whitespace character, keeping empty fields. -/
def splitOnWsChar : List Char → List (List Char)
  | [] => [[]]
  | c :: rest =>
    let r := splitOnWsChar rest
    if c.isWhitespace then [] :: r
    else
      match r with
      | [] => [[c]]
      | s :: ss => (c :: s) :: ss

/-- Rust `str::split_whitespace`: whitespace-run separated, no empties. -/
def splitWs (l : List Char) : List (List Char) :=
  (splitOnWsChar l).filter (fun s => s ≠ [])

/-- Rust `str::starts_with` for a literal (first argument is the pattern). -/
def startsWithL : List Char → List Char → Bool
  | [], _ => true
  | _ :: _, [] => false
  | p :: ps, c :: cs => p = c && startsWithL ps cs

/-- Rust `str::ends_with` for a literal (first argument is the pattern). -/
def endsWithL (pat l : List Char) : Bool :=
  startsWithL pat.reverse l.reverse

/-- Rust `str::trim_end_matches(ch)`: strip every trailing occurrence. -/
def stripTrailingAll (ch : Char) (l : List Char) : List Char :=
  (l.reverse.dropWhile (fun c => c = ch)).reverse

/-- Rust `str::trim_start_matches(ch)`: strip every leading occurrence. -/
def stripLeadingAll (ch : Char) (l : List Char) : List Char :=
  l.dropWhile (fun c => c = ch)

/-- Rust `str::trim_end_matches(pat)` for a multi-character pattern: strip
the suffix as long as it matches. -/
def stripSuffixAll (pat : List Char) (l : List Char) : List Char :=
  if h : pat ≠ [] ∧ endsWithL pat l = true ∧ pat.length ≤ l.length ∧ 0 < pat.length then
    stripSuffixAll pat (l.take (l.length - pat.length))
  else l
termination_by l.length
decreasing_by
  simp only [List.length_take]
  omega

/-- Value of one hexadecimal digit (`from_str_radix` accepts both cases). -/
def hexDigitVal (c : Char) : Option Nat :=
  if '0' ≤ c ∧ c ≤ '9' then some (c.toNat - '0'.toNat)
  else if 'a' ≤ c ∧ c ≤ 'f' then some (c.toNat - 'a'.toNat + 10)
  else if 'A' ≤ c ∧ c ≤ 'F' then some (c.toNat - 'A'.toNat + 10)
  else none

/-- Accumulating base-16 evaluation; fails on a non-digit. -/
def hexValAux : List Char → Nat → Option Nat
  | [], acc => some acc
  | c :: rest, acc =>
    match hexDigitVal c with
    | some d => hexValAux rest (acc * 16 + d)
    | none => none

/-- Rust `u64::from_str_radix(s, 16)`: optional leading `+`, then a
non-empty digit string; errors (here `none`) on empty input, a bad digit or
`u64` overflow. -/
def from_str_radix_16 (l : List Char) : Option Nat :=
  let l2 := if startsWithL ['+'] l then l.drop 1 else l
  match l2 with
  | [] => none
  | _ =>
    match hexValAux l2 0 with
    | some v => if v < U64 then some v else none
    | none => none

/-- `u64::from_str_radix(s, 16).unwrap_or(0)` as used by the parsing loop. -/
def parseHexOr0 (l : List Char) : Nat :=
  (from_str_radix_16 l).getD 0

/-- The regex `^[0-9a-f]+` — lowercase hex at the start of the line. -/
def headIsHexLower (l : List Char) : Bool :=
  match l with
  | [] => false
  | c :: _ => (decide ('0' ≤ c) && decide (c ≤ '9')) ||
      (decide ('a' ≤ c) && decide (c ≤ 'f'))

/-- State of the parsing loop: the listing built so far plus
`current_block`. -/
structure PState where
  listing : AssemblyListing
  cur : AssemblyBlock

/-- Initial loop state: empty listing, anonymous block with `id = -1` and
start address `0`. -/
def PState.init : PState :=
  { listing := AssemblyListing.new, cur := AssemblyBlock.new [] 0 (-1) }

/-- Push `current_block` into `blocks` when it has at least one line
(the `line_count() > 0` guard at every flush site). -/
def flushBlock (st : PState) : PState :=
  if st.cur.lines.length > 0 then
    { st with listing := { st.listing with
        blocks := st.listing.blocks ++ [st.cur] } }
  else st

/-- Flush, then start a fresh block named `name` at `address` with
`id = listing.blocks.len() as i32` (measured after the flush). -/
def flushAndNew (st : PState) (name : List Char) (address : Nat) : PState :=
  let st2 := flushBlock st
  { st2 with cur := AssemblyBlock.new name address (toI32 st2.listing.blocks.length) }

/-- The blank-line flush: push the block if non-empty, then reset to an
anonymous block with `id = -1` at address `0`. -/
def flushAndReset (st : PState) : PState :=
  let st2 := flushBlock st
  { st2 with cur := AssemblyBlock.new [] 0 (-1) }

/-- Append an accepted instruction line: `addr_map.insert` then push onto
the global `lines` and onto the current block. -/
def pushLine (st : PState) (rc_line : AssemblyLine) : PState :=
  { st with
    listing := { st.listing with
      addr_map := btmInsert rc_line.address st.listing.lines.length st.listing.addr_map
      lines := st.listing.lines ++ [rc_line] }
    cur := { st.cur with lines := st.cur.lines ++ [rc_line] } }

/-- One iteration of the parsing loop of `get_disasm_from_objdump`
(source lines 269–361): blank lines flush; lines that do not start with
lowercase hex or contain no colon are skipped; a single-field line ending
in `>:` is a function header; otherwise a line with at least three
tab-separated fields is an instruction, accepted only when its address is
not below the current block's start. -/
def processLine (st : PState) (buf : List Char) : PState :=
  if buf = [] then flushAndReset st
  else
    let line := trimChars buf
    if ¬(headIsHexLower line = true ∧ line.contains ':' = true) then st
    else
      let words := splitOnChar '\t' line
      if words.length = 1 ∧ endsWithL (">:".toList) line = true then
        match splitWs line with
        | p0 :: p1 :: _ =>
          let name := stripTrailingAll '>'
            (stripSuffixAll (">:".toList) (stripLeadingAll '<' p1))
          let address := parseHexOr0 (stripTrailingAll ':' p0)
          flushAndNew st name address
        | _ => st
      else
        let words2 := words.map trimChars
        if words2.length < 3 then st
        else
          match words2 with
          | w0 :: w1 :: wrest =>
            let address := parseHexOr0 (stripTrailingAll ':' w0)
            let bytes := w1.filter (fun c => ¬ c.isWhitespace)
            let instruction := joinChar '\t' wrest
            if address < st.cur.start_address then
              flushAndNew st [] address
            else
              pushLine st (AssemblyLine.new address bytes instruction line
                st.cur.id ((address - st.cur.start_address) % 2 ^ 32))
          | _ => st

/-- The parsing loop of `get_disasm_from_objdump` (the subprocess spawn and
buffered reading are I/O; the argument is objdump's stdout, split at
newlines with trailing CR/LF stripped), including the final flush of the
current block. -/
def get_disasm_from_objdump (input : List (List Char)) : AssemblyListing :=
  (flushBlock (input.foldl processLine PState.init)).listing

/-- The C8 counterexample input: a function header followed by two
instruction lines carrying the *same* address. -/
def dupInput : List (List Char) :=
  ["1000 <f>:".toList,
   "1000:\t00 20\tmovs r0,#0".toList,
   "1000:\t01 30\tadds r0,r1".toList]

/-- Index of the last occurrence of `a` in `l` (`BTreeMap::insert`
overwrites, so `addr_map` records the last inserted index per address). -/
def lastIdx : List Nat → Nat → Option Nat
  | [], _ => none
  | b :: rest, a =>
    match lastIdx rest a with
    | some i => some (i + 1)
    | none => if b = a then some 0 else none

/-- Invariant of a flushed block vector: each block's `id` is its own index
(as `i32`) or `-1`, every line of a block carries the block's `id`, and
every flushed block is non-empty. -/
def BlocksOK (blocks : List AssemblyBlock) : Prop :=
  ∀ j b, blocks[j]? = some b →
    (b.id = toI32 j ∨ b.id = -1) ∧ (∀ l ∈ b.lines, l.function_id = b.id) ∧
    b.lines ≠ []

/-- The loop invariant of the objdump parsing loop:
`addr_map` maps each address to the last inserted index for it; the global
line vector is the concatenation of the flushed blocks' lines followed by
the current block's; the flushed blocks satisfy `BlocksOK`; the current
block's `id` is the index it would be flushed at, or `-1`; every line of
the current block carries its `id`. -/
def PInv (st : PState) : Prop :=
  (∀ a, btmLookup a st.listing.addr_map
      = lastIdx (st.listing.lines.map AssemblyLine.address) a) ∧
  st.listing.lines = (st.listing.blocks.map AssemblyBlock.lines).flatten ++ st.cur.lines ∧
  BlocksOK st.listing.blocks ∧
  (st.cur.id = toI32 st.listing.blocks.length ∨ st.cur.id = -1) ∧
  (∀ l ∈ st.cur.lines, l.function_id = st.cur.id)

/-- The good-input listing used by the C8 witness. -/
def goodInput : List (List Char) :=
  ["1000 <f>:".toList,
   "1000:\t00 20\tmovs r0,#0".toList,
   "1002:\t01 30\tadds r0,r1".toList]

/-! ### `utils.rs` — `canonicalize_path` (claim C9)

The function reads ambient OS state: the `cfg!(windows)` flag, the current
directory, and the filesystem resolution performed by
`dunce::canonicalize`.  These are gathered in a `PathEnv` parameter; a
`fsCanonicalize` returning `none` is the `unwrap_or(absolute)` fallback the
specification calls "an unresolvable absolute form".  Percent decoding and
upper-casing operate at Unicode-scalar (not UTF-8 byte / full-case-mapping)
precision, which coincides with the Rust behaviour on ASCII input. -/

/-- Ambient OS state read by `canonicalize_path`. -/
structure PathEnv where
  isWindows : Bool
  cwd : List Char
  fsCanonicalize : List Char → Option (List Char)

/-- `urlencoding::decode`: replace `%XX` (two hex digits) by the decoded
character; a `%` not followed by two hex digits is kept. -/
def percentDecode : List Char → List Char
  | '%' :: a :: b :: rest =>
    match hexDigitVal a, hexDigitVal b with
    | some x, some y => Char.ofNat (16 * x + y) :: percentDecode rest
    | _, _ => '%' :: percentDecode (a :: b :: rest)
  | c :: rest => c :: percentDecode rest
  | [] => []

/-- `Path::is_absolute`: on non-Windows a leading `/`; on Windows a drive
prefix with a root, or a UNC prefix. -/
def pathIsAbsolute (env : PathEnv) (l : List Char) : Bool :=
  if env.isWindows then
    (decide (l[1]? = some ':') &&
      (decide (l[2]? = some '/') || decide (l[2]? = some '\\'))) ||
      startsWithL ("\\\\".toList) l || startsWithL ("//".toList) l
  else startsWithL ("/".toList) l

/-- `PathBuf::join` for the relative case (`current_dir().join(path)`):
replace when the argument is absolute, else append with a separator. -/
def pathJoin (env : PathEnv) (base p : List Char) : List Char :=
  if pathIsAbsolute env p then p
  else if base = [] then p
  else if base.getLast? = some '/' then base ++ p
  else base ++ '/' :: p

/-- The guard of the WSL-mount translation step: a `/mnt/` lead and a
one-character third `/`-field. -/
def wslApplies (l : List Char) : Bool :=
  startsWithL ("/mnt/".toList) l &&
    (decide (3 ≤ (splitOnChar '/' l).length) &&
      decide (((splitOnChar '/' l).getD 2 []).length = 1))

/-- The WSL-mount translation: `/mnt/<letter>/rest` ↦ `<LETTER>:/rest`. -/
def wslRewrite (l : List Char) : List Char :=
  let parts := splitOnChar '/' l
  let drive_letter := (parts.getD 2 []).map Char.toUpper
  let remaining := joinChar '/' (parts.drop 3)
  drive_letter ++ ':' :: '/' :: remaining

/-- The UNC component pass: upper-case the fields at indexes `< 2`. -/
def uncUpper : List (List Char) → List (List Char)
  | [] => []
  | [a] => [a.map Char.toUpper]
  | a :: b :: rest => a.map Char.toUpper :: b.map Char.toUpper :: rest

/-- Step 1 of `canonicalize_path`: strip a `file://` lead, percent-decode,
and on Windows drop the leading `/` of a `/C:/…` form. -/
def cp_file_uri (env : PathEnv) (source_path : List Char) : List Char :=
  if startsWithL ("file://".toList) source_path then
    let decoded := percentDecode (source_path.drop 7)
    if env.isWindows && startsWithL ("/".toList) decoded &&
        decide (decoded[2]? = some ':') then
      decoded.drop 1
    else decoded
  else source_path

/-- Step 2 of `canonicalize_path`: the WSL-mount translation. -/
def cp_wsl (l : List Char) : List Char :=
  if wslApplies l then wslRewrite l else l

/-- Step 3 of `canonicalize_path`: resolve to an absolute path against the
current directory. -/
def cp_absolute (env : PathEnv) (l : List Char) : List Char :=
  if pathIsAbsolute env l then l else pathJoin env env.cwd l

/-- Step 4 of `canonicalize_path`: `dunce::canonicalize(..).unwrap_or(..)`. -/
def cp_dunce (env : PathEnv) (l : List Char) : List Char :=
  (env.fsCanonicalize l).getD l

/-- Step 5 of `canonicalize_path`: force forward slashes. -/
def cp_slashes (l : List Char) : List Char :=
  l.map (fun c => if c = '\\' then '/' else c)

/-- Windows drive-letter normalization of `canonicalize_path`. -/
def cp_drive (env : PathEnv) (l : List Char) : List Char :=
  if env.isWindows && decide (l[1]? = some ':') then
    match l with
    | c0 :: rest => c0.toUpper :: rest
    | [] => l
  else l

/-- UNC normalization of `canonicalize_path` (not OS-gated in the source). -/
def cp_unc (l : List Char) : List Char :=
  if startsWithL ("//".toList) l then
    '/' :: '/' :: joinChar '/' (uncUpper (splitOnChar '/' (l.drop 2)))
  else l

/-- `canonicalize_path` from `utils.rs`: the sequential composition of its
numbered steps — strip and decode a `file://` lead (with the Windows
`/C:/` fix-up); translate a WSL mount; make absolute against the current
directory; apply the `dunce::canonicalize` oracle with the identity
fallback; force forward slashes; upper-case a Windows drive letter;
normalize a UNC lead. -/
def canonicalize_path (env : PathEnv) (source_path : List Char) : List Char :=
  cp_unc (cp_drive env (cp_slashes (cp_dunce env
    (cp_absolute env (cp_wsl (cp_file_uri env source_path))))))

/-- The C9 counterexample environment: Linux, current directory under a WSL
mount, no path resolvable on disk. -/
def envWsl : PathEnv :=
  { isWindows := false, cwd := "/mnt/c/work".toList
    fsCanonicalize := fun _ => none }

/-- A plain non-Windows environment for the C9 witness. -/
def envPlain : PathEnv :=
  { isWindows := false, cwd := "/home/u".toList
    fsCanonicalize := fun _ => none }

theorem btmLookup_insert_self {α : Type} (k : Nat) (v : α) (m : List (Nat × α)) :
    btmLookup k (btmInsert k v m) = some v := by
  induction m with
  | nil => simp [btmInsert, btmLookup]
  | cons p rest ih =>
    obtain ⟨k0, v0⟩ := p
    by_cases h1 : k < k0
    · simp [btmInsert, btmLookup, h1]
    · by_cases h2 : k = k0
      · simp [btmInsert, btmLookup, h1, h2]
      · simp [btmInsert, btmLookup, h1, h2, ih]

theorem btmLookup_insert_ne {α : Type} (k k1 : Nat) (v : α) (m : List (Nat × α))
    (hne : k1 ≠ k) : btmLookup k1 (btmInsert k v m) = btmLookup k1 m := by
  induction m with
  | nil => simp [btmInsert, btmLookup, hne]
  | cons p rest ih =>
    obtain ⟨k0, v0⟩ := p
    by_cases h1 : k < k0
    · simp [btmInsert, btmLookup, h1, hne]
    · by_cases h2 : k = k0
      · subst h2
        simp [btmInsert, btmLookup, h1, hne]
      · by_cases h3 : k1 = k0
        · simp [btmInsert, btmLookup, h1, h2, h3]
        · simp [btmInsert, btmLookup, h1, h2, h3, ih]

theorem btmInsert_mem {α : Type} {k : Nat} {v : α} {m : List (Nat × α)}
    {q : Nat × α} (hq : q ∈ btmInsert k v m) : q = (k, v) ∨ q ∈ m := by
  induction m with
  | nil =>
    simp [btmInsert] at hq
    subst hq; exact Or.inl rfl
  | cons p rest ih =>
    obtain ⟨k0, v0⟩ := p
    rw [btmInsert] at hq
    by_cases h1 : k < k0
    · simp only [h1, if_true] at hq
      rcases List.mem_cons.mp hq with h | h
      · subst h; exact Or.inl rfl
      · exact Or.inr h
    · by_cases h2 : k = k0
      · subst h2
        rw [if_neg (Nat.lt_irrefl k), if_pos rfl] at hq
        rcases List.mem_cons.mp hq with h | h
        · subst h; exact Or.inl rfl
        · exact Or.inr (List.mem_cons_of_mem _ h)
      · simp only [h1, h2, if_false] at hq
        rcases List.mem_cons.mp hq with h | h
        · subst h; exact Or.inr (List.mem_cons_self _ _)
        · rcases ih h with h3 | h3
          · exact Or.inl h3
          · exact Or.inr (List.mem_cons_of_mem _ h3)

theorem btmSorted_insert {α : Type} (k : Nat) (v : α) (m : List (Nat × α))
    (hs : btmSorted m) : btmSorted (btmInsert k v m) := by
  induction m with
  | nil => simp [btmInsert, btmSorted]
  | cons p rest ih =>
    obtain ⟨k0, v0⟩ := p
    rw [btmSorted, List.pairwise_cons] at hs
    obtain ⟨hhead, htail⟩ := hs
    by_cases h1 : k < k0
    · rw [btmSorted, btmInsert]
      simp only [h1, if_true]
      refine List.Pairwise.cons ?_ (List.Pairwise.cons hhead htail)
      intro q hq
      rcases List.mem_cons.mp hq with h | h
      · subst h; exact h1
      · exact Nat.lt_trans h1 (hhead q h)
    · by_cases h2 : k = k0
      · subst h2
        rw [btmSorted, btmInsert]
        simp only [h1, if_false, if_true]
        exact List.Pairwise.cons hhead htail
      · have hk0 : k0 < k := by omega
        rw [btmSorted, btmInsert]
        simp only [h1, h2, if_false]
        refine List.Pairwise.cons ?_ (ih htail)
        intro q hq
        rcases btmInsert_mem hq with h | h
        · subst h; exact hk0
        · exact hhead q h

theorem getLast?_mem {α : Type} {l : List α} {a : α} (h : l.getLast? = some a) :
    a ∈ l := by
  induction l with
  | nil => simp [List.getLast?] at h
  | cons x xs ih =>
    cases xs with
    | nil =>
      simp [List.getLast?] at h
      subst h; exact List.mem_singleton_self x
    | cons y ys =>
      rw [List.getLast?_cons_cons] at h
      exact List.mem_cons_of_mem _ (ih h)

theorem getLast?_cons_of_ne_nil {α : Type} (x : α) {l : List α} (h : l ≠ []) :
    (x :: l).getLast? = l.getLast? := by
  cases l with
  | nil => exact absurd rfl h
  | cons y ys => rw [List.getLast?_cons_cons]

/-- On a key-sorted map, `range(..=x).next_back()` returns the entry at key
`a` as soon as `(a, s)` is stored, `a ≤ x`, and no stored key lies in
`(a, x]`. -/
theorem btmPrevLE_eq_of_mem {α : Type} {m : List (Nat × α)} {a x : Nat} {s : α}
    (hs : btmSorted m) (hmem : (a, s) ∈ m) (hax : a ≤ x)
    (hmax : ∀ p ∈ m, p.1 ≤ x → p.1 ≤ a) :
    btmPrevLE x m = some (a, s) := by
  induction m with
  | nil => cases hmem
  | cons p rest ih =>
    obtain ⟨k0, v0⟩ := p
    rw [btmSorted, List.pairwise_cons] at hs
    obtain ⟨hhead, htail⟩ := hs
    rcases List.mem_cons.mp hmem with h | h
    · -- head is the target entry; all keys behind are > a hence filtered out
      injection h with hk hv
      subst hk; subst hv
      have hrestnil : rest.filter (fun p => p.1 ≤ x) = [] := by
        rw [List.filter_eq_nil_iff]
        intro q hq
        have h1 : a < q.1 := hhead q hq
        have h2 : q.1 ≤ x → q.1 ≤ a := hmax q (List.mem_cons_of_mem _ hq)
        simp only [decide_eq_true_eq]
        omega
      rw [btmPrevLE, List.filter_cons]
      simp only [hax, decide_true_eq_true, if_pos]
      rw [hrestnil]
      rfl
    · -- target is behind; the head is filtered in or out but is not last
      have hk0a : k0 < a := hhead (a, s) h
      have htailpl : btmPrevLE x rest = some (a, s) :=
        ih htail h (fun q hq hqx => hmax q (List.mem_cons_of_mem _ hq) hqx)
      have hne : rest.filter (fun p => p.1 ≤ x) ≠ [] := by
        intro hnil
        rw [btmPrevLE, hnil] at htailpl
        simp [List.getLast?] at htailpl
      rw [btmPrevLE, List.filter_cons]
      by_cases hk0x : k0 ≤ x
      · simp only [hk0x, decide_true_eq_true, if_pos]
        rw [getLast?_cons_of_ne_nil _ hne]
        exact htailpl
      · simp only [hk0x, decide_false_eq_false, if_neg, if_false]
        exact htailpl

theorem SymbolTable.WF.new : SymbolTable.new.WF := by
  constructor
  · simp [SymbolTable.new, btmSorted]
  · intro p hp
    simp [SymbolTable.new] at hp

theorem SymbolTable.WF.insert {t : SymbolTable} (h : t.WF) {s : Symbol}
    (ha : s.address < U64) (hs : s.size < U64) : (t.insert s).WF := by
  constructor
  · exact btmSorted_insert _ _ _ h.1
  · intro p hp
    rcases btmInsert_mem hp with h1 | h1
    · subst h1
      exact ⟨rfl, ha, hs⟩
    · exact h.2 p h1

/-- Splitting of `(k + s) % U64` used when reasoning about the wrapped
bound check of `lookup`. -/
theorem mod_u64_cases {k s : Nat} (hk : k < U64) (hs : s < U64) :
    (k + s) % U64 = k + s ∨ (k + s) % U64 = k + s - U64 := by
  by_cases h : k + s < U64
  · exact Or.inl (Nat.mod_eq_of_lt h)
  · right
    have h2 : k + s - U64 < U64 := by omega
    have h3 : (k + s) % U64 = (k + s - U64) % U64 := by
      conv_lhs => rw [Nat.mod_eq_sub_mod (by omega)]
    rw [h3, Nat.mod_eq_of_lt h2]

/-- C7, amended.  For a well-formed symbol table: (1) soundness — whatever
`lookup x` returns contains `x` (inside `[address, address+size)` when
`size > 0`, exactly at `address` when `size = 0`); (2) completeness — a
stored symbol with `size > 0` whose non-overflowing range contains `x` is
returned, provided no stored symbol (covering or not) has its start in
`(address, x]`.  The original claim's weaker proviso — only a *covering*
later symbol may shadow — is refuted by `C7_counterexample`. -/
theorem C7_lookup_amended (t : SymbolTable) (hwf : t.WF) (x : Nat) :
    (∀ sym, t.lookup x = some sym →
      sym.address ≤ x ∧
      ((0 < sym.size ∧ x < sym.address + sym.size) ∨
        (sym.size = 0 ∧ x = sym.address))) ∧
    (∀ a sym, (a, sym) ∈ t.symbols_by_addr → 0 < sym.size → a ≤ x →
      x < a + sym.size → a + sym.size < U64 →
      (∀ p ∈ t.symbols_by_addr, ¬(a < p.1 ∧ p.1 ≤ x)) →
      t.lookup x = some sym) := by
  constructor
  · intro sym hsym
    rw [SymbolTable.lookup] at hsym
    rcases hpl : btmPrevLE x t.symbols_by_addr with _ | ⟨k, s⟩
    · rw [hpl] at hsym
      cases hsym
    · rw [hpl] at hsym
      dsimp only at hsym
      have hmemf : (k, s) ∈ t.symbols_by_addr.filter (fun p => p.1 ≤ x) :=
        getLast?_mem hpl
      have hmem : (k, s) ∈ t.symbols_by_addr := (List.mem_filter.mp hmemf).1
      have hkx : k ≤ x := by
        have := (List.mem_filter.mp hmemf).2
        simpa using this
      obtain ⟨hka, haU, hsU⟩ := hwf.2 (k, s) hmem
      simp only at hka haU hsU
      by_cases h1 : 0 < s.size ∧ x < (k + s.size) % U64
      · rw [if_pos (by exact ⟨h1.1, h1.2⟩)] at hsym
        injection hsym with he
        subst he
        rw [← hka]
        refine ⟨hkx, Or.inl ⟨h1.1, ?_⟩⟩
        rcases mod_u64_cases (hka ▸ haU) hsU with h2 | h2 <;> omega
      · rw [if_neg h1] at hsym
        by_cases h2 : s.size = 0 ∧ x = k
        · rw [if_pos h2] at hsym
          injection hsym with he
          subst he
          rw [← hka]
          exact ⟨Nat.le_of_eq h2.2.symm, Or.inr ⟨h2.1, h2.2⟩⟩
        · rw [if_neg h2] at hsym
          cases hsym
  · intro a sym hmem hpos hax hxas hnoov hshadow
    have hmax : ∀ p ∈ t.symbols_by_addr, p.1 ≤ x → p.1 ≤ a := by
      intro p hp hpx
      have := hshadow p hp
      omega
    have hpl : btmPrevLE x t.symbols_by_addr = some (a, sym) :=
      btmPrevLE_eq_of_mem hwf.1 hmem hax hmax
    rw [SymbolTable.lookup, hpl]
    dsimp only
    rw [if_pos]
    exact ⟨hpos, by rw [Nat.mod_eq_of_lt hnoov]; exact hxas⟩

/-- C7 is false as stated: `symA` is stored with range `[0x100, 0x200)`
containing `0x190`, the only other stored symbol (`symB`, a size-0 marker
inserted later at the larger start `0x180 ≤ 0x190`) does *not* cover
`0x190`, yet `lookup 0x190` returns `none` rather than `symA` — the nearer
non-covering marker shadows the covering symbol. -/
theorem C7_counterexample :
    (0x100, symA) ∈ tblAB.symbols_by_addr ∧
    0 < symA.size ∧ symA.address ≤ 0x190 ∧
    (0x190 : Nat) < symA.address + symA.size ∧
    (∀ p ∈ tblAB.symbols_by_addr,
      symA.address < p.1 ∧ p.1 ≤ 0x190 →
      ¬((0 < p.2.size ∧ p.2.address ≤ 0x190 ∧ (0x190 : Nat) < p.2.address + p.2.size) ∨
        (p.2.size = 0 ∧ (0x190 : Nat) = p.2.address))) ∧
    tblAB.lookup 0x190 = none := by
  decide

/-- Witness for `C7_lookup_amended` at a concrete one-symbol table. -/
theorem C7_lookup_amended_witness :
    (SymbolTable.new.insert symW).lookup 0x105 = some symW :=
  (C7_lookup_amended (SymbolTable.new.insert symW)
      (SymbolTable.WF.insert SymbolTable.WF.new (by decide) (by decide)) 0x105).2
    0x100 symW (by decide) (by decide) (by decide) (by decide) (by decide)
    (by decide)

/-- C1 (code bug).  On Scenario A's own listing, `get_window(0x1002, 1, 1)`
does not return the three-line window the claim promises: the anchor
`0x1002` is the last listed line, so the `after` arm collects nothing and
the source indexes `after_instrs[after_instrs.len() - 1]` on an empty
vector — a panic (`none` in this model) instead of tail padding. -/
theorem C1_scenarioA_panics :
    scenarioA.get_window 0x1002 1 1 = none := by decide

/-- C10 (code bug).  `get_window` is not total: with a single listed line
and `after = 1`, the anchor is the last line, the forward collection is
empty, and the tail-padding step indexes the empty vector — a panic. -/
theorem C10_tail_padding_panics :
    oneLineListing.get_window 0x1000 0 1 = none := by decide

/-- C6 counterexample.  An anchor exists at `0x1000` (it is a listed
address), yet `get_window(0x1000, 0, 0)` returns the empty vector, not a
single entry. -/
theorem C6_counterexample :
    scenarioA.get_window 0x1000 0 0 = some [] ∧
    (btmPrevLE 0x1000 scenarioA.addr_map).isSome = true := by decide

/-- C6, amended.  With `before = 0` and `after = 0`, `get_window` never
panics and always returns the empty vector — whether or not an anchor
exists. -/
theorem C6_zero_zero_amended (L : AssemblyListing) (target_addr : Nat) :
    L.get_window target_addr 0 0 = some [] := by
  rw [AssemblyListing.get_window]
  rcases btmPrevLE target_addr L.addr_map with _ | sa
  · rfl
  · rfl

/-- Point lookup into the `HashMap` model after an overwriting insert at the
same key. -/
theorem hmLookup_insert_self {α : Type} (k : String) (v : α) (m : List (String × α)) :
    hmLookup k (hmInsert k v m) = some v := by
  induction m with
  | nil => simp [hmInsert, hmLookup]
  | cons p rest ih =>
    obtain ⟨k0, v0⟩ := p
    by_cases h : k = k0
    · simp [hmInsert, hmLookup, h]
    · simp [hmInsert, hmLookup, h, ih]

/-- C3 counterexample.  A subprogram DIE with `low_pc = 0x100` and
`high_pc − low_pc = 0x100 > 0`, against an empty ELF store: the claim
demands a new Function symbol at `0x100` in the DWARF store, but the code
takes the early `return` of the no-covering-symbol branch and inserts
nothing. -/
theorem C3_counterexample :
    ObjectInfo.new.elf_symbols.lookup 0x100 = none ∧
    (0x100 : Nat) + 0x100 - 0x100 > 0 ∧
    (process_dwarf_entry
        (DwarfDie.subprogram "f" (some 0x100) (DwarfHighPc.udata 0x100))
        ObjectInfo.new).dwarf_symbols.symbols_by_addr = [] := by
  decide

/-- C3, amended.  For a subprogram DIE with `low_pc` present: if the ELF
store's `lookup` covers `low_pc`, that symbol is copied into the DWARF
store (reachable both by its address and by its name); otherwise the DIE is
skipped and the object info is unchanged — no new Function symbol is ever
inserted from `high_pc − low_pc`, that code being unreachable when `low_pc`
exists. -/
theorem C3_subprogram_amended (name : String) (low : Nat)
    (high_attr : DwarfHighPc) (info : ObjectInfo) :
    (∀ s, info.elf_symbols.lookup low = some s →
      btmLookup s.address
          (process_dwarf_entry (DwarfDie.subprogram name (some low) high_attr)
            info).dwarf_symbols.symbols_by_addr = some s ∧
      hmLookup s.name
          (process_dwarf_entry (DwarfDie.subprogram name (some low) high_attr)
            info).dwarf_symbols.symbols_by_name = some s) ∧
    (info.elf_symbols.lookup low = none →
      process_dwarf_entry (DwarfDie.subprogram name (some low) high_attr) info
        = info) := by
  constructor
  · intro s hs
    rw [process_dwarf_entry, hs]
    exact ⟨btmLookup_insert_self s.address s _, hmLookup_insert_self s.name s _⟩
  · intro hnone
    rw [process_dwarf_entry, hnone]

/-- Witness for `C3_subprogram_amended`: with a one-symbol ELF store
covering `0x100`, the symbol lands in the DWARF store. -/
theorem C3_subprogram_amended_witness :
    btmLookup 0x100
      (process_dwarf_entry (DwarfDie.subprogram "f" (some 0x105) DwarfHighPc.absent)
        { ObjectInfo.new with
          elf_symbols := SymbolTable.new.insert symW }).dwarf_symbols.symbols_by_addr
      = some symW :=
  ((C3_subprogram_amended "f" 0x105 DwarfHighPc.absent
      { ObjectInfo.new with elf_symbols := SymbolTable.new.insert symW }).1
    symW (by decide)).1

/-- C4 (code bug).  Processing a variable DIE whose demangled name matches
the Static Data symbol `counter` files the symbol in `static_file_mapping`
under the key `"counter"` — the symbol's own name — and under no other key;
the compilation unit's source-file path is never consulted, contradicting
the declared key type (`&CanonicalPath`, `elf_items.rs:129`) and the
mapping's documented meaning. -/
theorem C4_static_keyed_by_name :
    (process_dwarf_entry (DwarfDie.var "counter") infoC4).static_file_mapping.file_map
      = [("counter", [symCounter])] := by
  decide

/-- C5 (code bug).  For `instr_offset = -10`, `instr_count = 5`:
`before = 10` as the claim says, but `after` is the unclamped wrapping
subtraction `5 - 10`, which is `2^64 - 5`, not the claimed
`max(0, 5 - 10) = 0` — request processing wraps (and a debug build panics
at this subtraction). -/
theorem C5_after_wraps :
    worker_before (-10) = 10 ∧
    worker_after 5 (worker_before (-10)) = U64 - 5 ∧
    worker_after 5 (worker_before (-10)) ≠ 0 := by
  refine ⟨by decide, ?_, ?_⟩ <;> norm_num [worker_before, worker_after, U64]

/-- C2 counterexample.  In a concrete run (Scenario A's listing, an empty
object info), `DisassemblyReady` is the worker's *first* step, strictly
before the annotation pass completes — refuting "DisassemblyReady is
emitted only after the worker has received the object info and completed
the source-line annotation pass". -/
theorem C2_counterexample :
    (run_disassembly_worker (some scenarioA) (some ObjectInfo.new)).1.head?
      = some (WorkerStep.emit (HelperEvt.DisassemblyReady 2)) ∧
    WorkerStep.annotateDone
      ∈ (run_disassembly_worker (some scenarioA) (some ObjectInfo.new)).1.tail := by
  decide

/-- One step of the ELF symbol loop either emits nothing or appends one
`RTTFound` event. -/
theorem elf_symbol_step_events (dm : String → String)
    (acc : ObjectInfo × List HelperEvt) (s : RawElfSymbol) :
    (elf_symbol_step dm acc s).2 = acc.2 ∨
    (elf_symbol_step dm acc s).2 = acc.2 ++ [HelperEvt.RTTFound s.address] := by
  rw [elf_symbol_step]
  rcases s.name with _ | name
  · exact Or.inl rfl
  · dsimp only
    split
    · exact Or.inl rfl
    · split
      · exact Or.inr rfl
      · exact Or.inl rfl

/-- Events emitted along the ELF symbol pass are `RTTFound` only. -/
theorem elf_symbol_pass_events_rtt (dm : String → String)
    (syms : List RawElfSymbol) :
    ∀ e ∈ (elf_symbol_pass dm syms).2, ∃ a, e = HelperEvt.RTTFound a := by
  rw [elf_symbol_pass]
  have hgen : ∀ (l : List RawElfSymbol) (acc : ObjectInfo × List HelperEvt),
      (∀ e ∈ acc.2, ∃ a, e = HelperEvt.RTTFound a) →
      ∀ e ∈ (l.foldl (elf_symbol_step dm) acc).2, ∃ a, e = HelperEvt.RTTFound a := by
    intro l
    induction l with
    | nil => intro acc hacc; exact hacc
    | cons s rest ih =>
      intro acc hacc
      rw [List.foldl_cons]
      refine ih (elf_symbol_step dm acc s) ?_
      intro e he
      rcases elf_symbol_step_events dm acc s with h | h
      · rw [h] at he
        exact hacc e he
      · rw [h] at he
        rcases List.mem_append.mp he with h2 | h2
        · exact hacc e h2
        · rw [List.mem_singleton.mp h2]
          exact ⟨s.address, rfl⟩
  exact hgen syms (ObjectInfo.new, []) (by intro e he; cases he)

/-- C2, amended.  What actually holds of the readiness events: on the main
thread every `RTTFound` (if any) strictly precedes `SymbolTableReady`,
which is the last main-thread startup event; on the worker thread
`DisassemblyReady` is the *first* step — emitted right after the listing
parses, before the object info is received and before the annotation pass —
so `DisassemblyReady` is not ordered after `SymbolTableReady`. -/
theorem C2_event_order_amended (dm : String → String) (syms : List RawElfSymbol)
    (listing : AssemblyListing) (info : ObjectInfo) :
    (∃ pre, main_events dm syms = pre ++ [HelperEvt.SymbolTableReady] ∧
      ∀ e ∈ pre, ∃ a, e = HelperEvt.RTTFound a) ∧
    ((run_disassembly_worker (some listing) (some info)).1.head?
        = some (WorkerStep.emit (HelperEvt.DisassemblyReady listing.lines.length)) ∧
      WorkerStep.annotateDone
        ∈ (run_disassembly_worker (some listing) (some info)).1.tail) := by
  refine ⟨⟨(elf_symbol_pass dm syms).2, rfl, elf_symbol_pass_events_rtt dm syms⟩, rfl, ?_⟩
  rw [run_disassembly_worker]
  dsimp only
  exact List.mem_cons_of_mem _ (List.mem_cons_self _ _)

/-- Witness for `C2_event_order_amended` at a concrete run. -/
theorem C2_event_order_amended_witness :
    WorkerStep.annotateDone
      ∈ (run_disassembly_worker (some oneLineListing) (some ObjectInfo.new)).1.tail :=
  (C2_event_order_amended id [] oneLineListing ObjectInfo.new).2.2

/-- C8 is false as stated over arbitrary disassembler output: on `dupInput`
the parse accepts two lines at the same address `0x1000`, so the line
addresses are not strictly increasing and `addr_map[lines[0].address]`
is `1`, not `0`. -/
theorem C8_counterexample :
    ((get_disasm_from_objdump dupInput).lines.map AssemblyLine.address)
      = [0x1000, 0x1000] ∧
    btmLookup 0x1000 (get_disasm_from_objdump dupInput).addr_map = some 1 := by
  decide

theorem lastIdx_append_single (l : List Nat) (b a : Nat) :
    lastIdx (l ++ [b]) a = if b = a then some l.length else lastIdx l a := by
  induction l with
  | nil =>
    by_cases h : b = a <;> simp [lastIdx, h]
  | cons c rest ih =>
    have hstep : lastIdx ((c :: rest) ++ [b]) a
        = match lastIdx (rest ++ [b]) a with
          | some i => some (i + 1)
          | none => if c = a then some 0 else none := rfl
    rw [hstep, ih]
    by_cases h : b = a
    · rw [if_pos h, if_pos h]
      rfl
    · rw [if_neg h, if_neg h]
      rfl

theorem lastIdx_of_not_mem {l : List Nat} {a : Nat} (h : a ∉ l) :
    lastIdx l a = none := by
  induction l with
  | nil => rfl
  | cons b rest ih =>
    have hb : b ≠ a := fun he => h (he ▸ List.mem_cons_self b rest)
    have hr : a ∉ rest := fun hm => h (List.mem_cons_of_mem _ hm)
    rw [lastIdx, ih hr]
    simp [hb]

theorem lastIdx_get_of_pairwise_ne {l : List Nat} (hp : l.Pairwise (fun a b => a ≠ b))
    (i : Nat) (h : i < l.length) : lastIdx l (l.get ⟨i, h⟩) = some i := by
  induction l generalizing i with
  | nil => cases h
  | cons b rest ih =>
    rw [List.pairwise_cons] at hp
    obtain ⟨hhead, htail⟩ := hp
    cases i with
    | zero =>
      have hnm : b ∉ rest := fun hm => (hhead b hm) rfl
      simp only [List.get]
      rw [lastIdx, lastIdx_of_not_mem hnm, if_pos rfl]
    | succ j =>
      have hj : j < rest.length := Nat.lt_of_succ_lt_succ h
      simp only [List.get]
      rw [lastIdx, ih htail j hj]

theorem PInv_init : PInv PState.init := by
  refine ⟨?_, rfl, ?_, Or.inr rfl, ?_⟩
  · intro a; rfl
  · intro j b hb
    simp [PState.init, AssemblyListing.new] at hb
  · intro l hl
    simp [PState.init, AssemblyBlock.new] at hl

/-- What a flush alone guarantees: the listing's lines and `addr_map` do not
move, the flushed block vector absorbs the current block's lines, and it
stays `BlocksOK`. -/
theorem flushBlock_facts {st : PState} (h : PInv st) :
    (flushBlock st).listing.addr_map = st.listing.addr_map ∧
    (flushBlock st).listing.lines = st.listing.lines ∧
    (flushBlock st).listing.lines
      = (((flushBlock st).listing.blocks.map AssemblyBlock.lines).flatten) ∧
    BlocksOK (flushBlock st).listing.blocks ∧
    (st.cur.lines ≠ [] →
      (flushBlock st).listing.blocks = st.listing.blocks ++ [st.cur]) ∧
    (st.cur.lines = [] → (flushBlock st).listing.blocks = st.listing.blocks) := by
  obtain ⟨hm, hp, hb, hc, hf⟩ := h
  rw [flushBlock]
  by_cases hne : st.cur.lines.length > 0
  · rw [if_pos hne]
    have hcurne : st.cur.lines ≠ [] := by
      intro h0; rw [h0] at hne; cases hne
    have hb2 : BlocksOK (st.listing.blocks ++ [st.cur]) := by
      intro j b hj
      by_cases hlt : j < st.listing.blocks.length
      · rw [List.getElem?_append_left hlt] at hj
        exact hb j b hj
      · have hj2 : j = st.listing.blocks.length := by
          by_contra hneq
          have hge : st.listing.blocks.length + 1 ≤ j := by omega
          have h0 : (st.listing.blocks ++ [st.cur])[j]? = none :=
            List.getElem?_eq_none (by
              rw [List.length_append, List.length_singleton]; omega)
          rw [h0] at hj
          cases hj
        subst hj2
        rw [List.getElem?_concat_length] at hj
        injection hj with he
        subst he
        exact ⟨hc, hf, hcurne⟩
    have hp2 : st.listing.lines
        = ((st.listing.blocks ++ [st.cur]).map AssemblyBlock.lines).flatten := by
      rw [List.map_append, List.flatten_append]
      simpa using hp
    exact ⟨rfl, rfl, hp2, hb2, fun _ => rfl, fun h0 => absurd h0 hcurne⟩
  · rw [if_neg hne]
    have hlen0 : st.cur.lines.length = 0 := by omega
    have hcure : st.cur.lines = [] := List.eq_nil_of_length_eq_zero hlen0
    have hp2 : st.listing.lines
        = ((st.listing.blocks.map AssemblyBlock.lines).flatten) := by
      rw [hp, hcure, List.append_nil]
    exact ⟨rfl, rfl, hp2, hb, fun h0 => absurd hcure h0, fun _ => rfl⟩

theorem PInv_flushAndNew {st : PState} (h : PInv st) (name : List Char)
    (address : Nat) : PInv (flushAndNew st name address) := by
  obtain ⟨hmap, hlines, hjoin, hbok, _, _⟩ := flushBlock_facts h
  refine ⟨?_, ?_, ?_, ?_, ?_⟩
  · intro a
    rw [flushAndNew]
    dsimp only
    rw [hmap, hlines, (h.1 a)]
  · rw [flushAndNew]
    dsimp only
    rw [AssemblyBlock.new]
    simpa using hjoin
  · exact hbok
  · exact Or.inl rfl
  · intro l hl
    rw [flushAndNew] at hl
    simp [AssemblyBlock.new] at hl

theorem PInv_flushAndReset {st : PState} (h : PInv st) :
    PInv (flushAndReset st) := by
  obtain ⟨hmap, hlines, hjoin, hbok, _, _⟩ := flushBlock_facts h
  refine ⟨?_, ?_, ?_, Or.inr rfl, ?_⟩
  · intro a
    rw [flushAndReset]
    dsimp only
    rw [hmap, hlines, (h.1 a)]
  · rw [flushAndReset]
    dsimp only
    rw [AssemblyBlock.new]
    simpa using hjoin
  · exact hbok
  · intro l hl
    rw [flushAndReset] at hl
    simp [AssemblyBlock.new] at hl

theorem PInv_pushLine {st : PState} (h : PInv st) {l : AssemblyLine}
    (hfid : l.function_id = st.cur.id) : PInv (pushLine st l) := by
  obtain ⟨hm, hp, hb, hc, hf⟩ := h
  refine ⟨?_, ?_, hb, hc, ?_⟩
  · intro a
    rw [pushLine]
    dsimp only
    rw [List.map_append]
    simp only [List.map_cons, List.map_nil]
    rw [lastIdx_append_single]
    by_cases he : l.address = a
    · subst he
      rw [if_pos rfl, btmLookup_insert_self]
      rw [List.length_map]
    · rw [if_neg he, btmLookup_insert_ne _ _ _ _ (fun hcon => he hcon.symm)]
      exact hm a
  · rw [pushLine]
    dsimp only
    rw [hp, List.append_assoc]
  · intro x hx
    rw [pushLine] at hx
    dsimp only at hx
    rcases List.mem_append.mp hx with h1 | h1
    · exact hf x h1
    · rw [List.mem_singleton.mp h1]
      exact hfid

theorem PInv_processLine {st : PState} (h : PInv st) (buf : List Char) :
    PInv (processLine st buf) := by
  rw [processLine]
  split
  · exact PInv_flushAndReset h
  · dsimp only
    split
    · exact h
    · split
      · split
        · exact PInv_flushAndNew h _ _
        · exact h
      · split
        · exact h
        · split
          · split
            · exact PInv_flushAndNew h _ _
            · exact PInv_pushLine h rfl
          · exact h

theorem PInv_foldl (input : List (List Char)) :
    PInv (input.foldl processLine PState.init) := by
  have hgen : ∀ (l : List (List Char)) (st : PState), PInv st →
      PInv (l.foldl processLine st) := by
    intro l
    induction l with
    | nil => intro st h; exact h
    | cons b rest ih =>
      intro st h
      rw [List.foldl_cons]
      exact ih _ (PInv_processLine h b)
  exact hgen input _ PInv_init

/-- The structural invariants of the final parsed listing. -/
theorem get_disasm_invariants (input : List (List Char)) :
    (∀ a, btmLookup a (get_disasm_from_objdump input).addr_map
        = lastIdx ((get_disasm_from_objdump input).lines.map AssemblyLine.address) a) ∧
    (get_disasm_from_objdump input).lines
      = ((get_disasm_from_objdump input).blocks.map AssemblyBlock.lines).flatten ∧
    BlocksOK (get_disasm_from_objdump input).blocks := by
  have h := PInv_foldl input
  obtain ⟨hmap, hlines, hjoin, hbok, _, _⟩ := flushBlock_facts h
  rw [get_disasm_from_objdump]
  refine ⟨?_, hjoin, hbok⟩
  intro a
  rw [hmap, hlines]
  exact h.1 a

theorem toI32_small {n : Nat} (h : n < 2 ^ 31) : toI32 n = (n : Int) := by
  rw [toI32]
  have h32 : n % 2 ^ 32 = n := Nat.mod_eq_of_lt (by omega)
  rw [h32, if_pos h]

theorem length_le_flatten_length {α : Type} (ls : List (List α))
    (h : ∀ x ∈ ls, x ≠ []) : ls.length ≤ ls.flatten.length := by
  induction ls with
  | nil => simp
  | cons x xs ih =>
    rw [List.flatten_cons, List.length_append, List.length_cons]
    have hx : x ≠ [] := h x (List.mem_cons_self _ _)
    have hx1 : 1 ≤ x.length := by
      rcases hxe : x with _ | ⟨y, ys⟩
      · exact absurd hxe hx
      · simp
    have hxs := ih (fun y hy => h y (List.mem_cons_of_mem _ hy))
    omega

/-- C8, amended.  The universal claim fails on duplicate or decreasing
addresses (`C8_counterexample`); what holds is: whenever the parsed line
addresses are strictly increasing (as they are for well-formed objdump
output) and the listing holds fewer than `2^31` lines (so `i32` block ids
do not truncate), then `addr_map[lines[i].address] = i` for every `i`, and
every line's `function_id` is `-1` or is exactly the index of the unique
block whose line vector contains it. -/
theorem C8_invariants_amended (input : List (List Char))
    (hinc : ((get_disasm_from_objdump input).lines.map
      AssemblyLine.address).Pairwise (fun a b => a < b))
    (hsize : (get_disasm_from_objdump input).lines.length < 2 ^ 31) :
    (∀ i, ∀ h : i < (get_disasm_from_objdump input).lines.length,
      btmLookup ((get_disasm_from_objdump input).lines.get ⟨i, h⟩).address
        (get_disasm_from_objdump input).addr_map = some i) ∧
    (∀ l ∈ (get_disasm_from_objdump input).lines,
      l.function_id = -1 ∨
      ∃ j, ∃ hj : j < (get_disasm_from_objdump input).blocks.length,
        l.function_id = (j : Int) ∧
        ((get_disasm_from_objdump input).blocks.get ⟨j, hj⟩).id = (j : Int) ∧
        l ∈ ((get_disasm_from_objdump input).blocks.get ⟨j, hj⟩).lines ∧
        (∀ k, ∀ hk : k < (get_disasm_from_objdump input).blocks.length,
          l ∈ ((get_disasm_from_objdump input).blocks.get ⟨k, hk⟩).lines →
            k = j)) := by
  obtain ⟨hmap, hpart, hbok⟩ := get_disasm_invariants input
  have hblen : (get_disasm_from_objdump input).blocks.length
      ≤ (get_disasm_from_objdump input).lines.length := by
    have hne0 : ∀ x ∈ ((get_disasm_from_objdump input).blocks.map
        AssemblyBlock.lines), x ≠ [] := by
      intro x hx
      obtain ⟨b, hb, hxe⟩ := List.mem_map.mp hx
      obtain ⟨n, hn⟩ := List.get_of_mem hb
      have hbq : (get_disasm_from_objdump input).blocks[n.1]? = some b := by
        rw [List.getElem?_eq_getElem n.2, ← hn]
        rfl
      obtain ⟨_, _, hbne⟩ := hbok n.1 b hbq
      rw [← hxe]
      exact hbne
    have := length_le_flatten_length _ hne0
    rw [← hpart] at this
    simpa using this
  constructor
  · intro i h
    have hne := hinc.imp (fun hab => Nat.ne_of_lt hab)
    have hlen : i < ((get_disasm_from_objdump input).lines.map
        AssemblyLine.address).length := by
      rw [List.length_map]; exact h
    have hli := lastIdx_get_of_pairwise_ne hne i hlen
    have hget : ((get_disasm_from_objdump input).lines.map
        AssemblyLine.address).get ⟨i, hlen⟩
        = ((get_disasm_from_objdump input).lines.get ⟨i, h⟩).address := by
      rw [List.get_eq_getElem, List.get_eq_getElem, List.getElem_map]
    rw [hmap, ← hget, hli]
  · intro l hl
    rw [hpart] at hl
    obtain ⟨x, hx, hlx⟩ := List.mem_flatten.mp hl
    obtain ⟨b, hb, hxe⟩ := List.mem_map.mp hx
    obtain ⟨n, hn⟩ := List.get_of_mem hb
    have hbq : (get_disasm_from_objdump input).blocks[n.1]? = some b := by
      rw [List.getElem?_eq_getElem n.2, ← hn]
      rfl
    obtain ⟨hid, hfid, _⟩ := hbok n.1 b hbq
    have hlb : l ∈ b.lines := by rw [hxe]; exact hlx
    have hlfid : l.function_id = b.id := hfid l hlb
    rcases hid with hid | hid
    · right
      have hjlt : n.1 < (get_disasm_from_objdump input).blocks.length := n.2
      have hj31 : n.1 < 2 ^ 31 := by omega
      have hto : toI32 n.1 = (n.1 : Int) := toI32_small hj31
      refine ⟨n.1, hjlt, ?_, ?_, ?_, ?_⟩
      · rw [hlfid, hid, hto]
      · have : (get_disasm_from_objdump input).blocks.get ⟨n.1, hjlt⟩ = b := by
          rw [← hn]
        rw [this, hid, hto]
      · have : (get_disasm_from_objdump input).blocks.get ⟨n.1, hjlt⟩ = b := by
          rw [← hn]
        rw [this]
        exact hlb
      · intro k hk hlk
        have hbq2 : (get_disasm_from_objdump input).blocks[k]? =
            some ((get_disasm_from_objdump input).blocks.get ⟨k, hk⟩) := by
          rw [List.getElem?_eq_getElem hk]
          rfl
        obtain ⟨hid2, hfid2, _⟩ := hbok k _ hbq2
        have hlfid2 : l.function_id =
            ((get_disasm_from_objdump input).blocks.get ⟨k, hk⟩).id :=
          hfid2 l hlk
        rcases hid2 with hid2 | hid2
        · have hk31 : k < 2 ^ 31 := by omega
          have hto2 : toI32 k = (k : Int) := toI32_small hk31
          rw [hid2, hto2] at hlfid2
          rw [hlfid, hid, hto] at hlfid2
          exact_mod_cast hlfid2.symm
        · rw [hid2] at hlfid2
          rw [hlfid, hid, hto] at hlfid2
          omega
    · left
      rw [hlfid, hid]

/-- Witness for `C8_invariants_amended` on a concrete well-formed input. -/
theorem C8_invariants_amended_witness :
    btmLookup 0x1000 (get_disasm_from_objdump goodInput).addr_map = some 0 := by
  have h := (C8_invariants_amended goodInput (by decide) (by decide)).1 0 (by decide)
  have e : ((get_disasm_from_objdump goodInput).lines.get
      ⟨0, by decide⟩).address = 0x1000 := by decide
  rw [← e]
  exact h

/-- C9 is false as stated: with the current directory `/mnt/c/work`,
`canonicalize("foo.c")` is `/mnt/c/work/foo.c`, but canonicalizing that
again triggers the WSL-mount translation and yields
`/mnt/c/work/C:/work/foo.c` — the function is not idempotent. -/
theorem C9_counterexample :
    canonicalize_path envWsl (canonicalize_path envWsl ("foo.c".toList))
      ≠ canonicalize_path envWsl ("foo.c".toList) := by
  decide

theorem char_eq_of_toNat_eq {a b : Char} (h : a.toNat = b.toNat) : a = b := by
  apply Char.ext
  exact UInt32.toNat.inj h

theorem toUpper_toNat (c : Char) :
    (Char.toUpper c).toNat
      = if 97 ≤ c.toNat ∧ c.toNat ≤ 122 then c.toNat - 32 else c.toNat := by
  by_cases h : 97 ≤ c.toNat ∧ c.toNat ≤ 122
  · have h2 : c.toNat ≥ 97 ∧ c.toNat ≤ 122 := h
    rw [if_pos h]
    simp only [Char.toUpper]
    rw [if_pos h2]
    have hv : (c.toNat - 32).isValidChar := Or.inl (by omega)
    rw [Char.ofNat, dif_pos hv]
    rfl
  · have h2 : ¬(c.toNat ≥ 97 ∧ c.toNat ≤ 122) := h
    rw [if_neg h]
    simp only [Char.toUpper]
    rw [if_neg h2]

theorem toUpper_idem (c : Char) :
    Char.toUpper (Char.toUpper c) = Char.toUpper c := by
  apply char_eq_of_toNat_eq
  have h1 := toUpper_toNat c
  have h2 := toUpper_toNat (Char.toUpper c)
  rw [h2, h1]
  split_ifs <;> omega

/-- `toUpper` cannot produce a character outside the upper-case letters
unless it was already there: in particular it preserves being distinct from
`/` (47) and `\` (92). -/
theorem toUpper_ne_special {c d : Char} (hne : c ≠ d)
    (hd : d.toNat < 65 ∨ 90 < d.toNat) : Char.toUpper c ≠ d := by
  intro he
  have h1 := toUpper_toNat c
  rw [he] at h1
  by_cases h : 97 ≤ c.toNat ∧ c.toNat ≤ 122
  · rw [if_pos h] at h1
    omega
  · rw [if_neg h] at h1
    exact hne (char_eq_of_toNat_eq h1.symm)

theorem map_toUpper_idem (l : List Char) :
    (l.map Char.toUpper).map Char.toUpper = l.map Char.toUpper := by
  induction l with
  | nil => rfl
  | cons c rest ih =>
    rw [List.map_cons, List.map_cons, toUpper_idem, ih]

theorem map_replace_no_bs (l : List Char) :
    ∀ c ∈ l.map (fun c => if c = '\\' then '/' else c), c ≠ '\\' := by
  intro c hc
  obtain ⟨a, _, hae⟩ := List.mem_map.mp hc
  by_cases h : a = '\\'
  · rw [if_pos h] at hae
    rw [← hae]
    decide
  · rw [if_neg h] at hae
    rw [← hae]
    exact h

theorem map_replace_eq_self {l : List Char} (h : ∀ c ∈ l, c ≠ '\\') :
    l.map (fun c => if c = '\\' then '/' else c) = l := by
  induction l with
  | nil => rfl
  | cons c rest ih =>
    rw [List.map_cons, if_neg (h c (List.mem_cons_self _ _)),
      ih (fun x hx => h x (List.mem_cons_of_mem _ hx))]

theorem splitOnChar_ne_nil (sep : Char) (l : List Char) :
    splitOnChar sep l ≠ [] := by
  induction l with
  | nil => simp [splitOnChar]
  | cons c rest ih =>
    rw [splitOnChar]
    by_cases h : c = sep
    · simp [h]
    · rw [if_neg h]
      rcases hr : splitOnChar sep rest with _ | ⟨s, ss⟩
      · simp
      · simp

theorem splitOnChar_not_mem (sep : Char) (l : List Char) :
    ∀ s ∈ splitOnChar sep l, sep ∉ s := by
  induction l with
  | nil =>
    intro s hs
    rw [splitOnChar, List.mem_singleton] at hs
    subst hs
    simp
  | cons c rest ih =>
    intro s hs
    rw [splitOnChar] at hs
    by_cases h : c = sep
    · rw [if_pos h] at hs
      rcases List.mem_cons.mp hs with h1 | h1
      · subst h1; simp
      · exact ih s h1
    · rw [if_neg h] at hs
      rcases hr : splitOnChar sep rest with _ | ⟨t, ts⟩
      · exact absurd hr (splitOnChar_ne_nil sep rest)
      · rw [hr] at hs
        rcases List.mem_cons.mp hs with h1 | h1
        · subst h1
          intro hmem
          rcases List.mem_cons.mp hmem with h2 | h2
          · exact h h2.symm
          · exact (ih t (hr ▸ List.mem_cons_self t ts)) h2
        · exact ih s (hr ▸ List.mem_cons_of_mem t h1)

theorem mem_of_mem_splitOnChar {sep : Char} {l : List Char} {s : List Char}
    {c : Char} (hs : s ∈ splitOnChar sep l) (hc : c ∈ s) : c ∈ l := by
  induction l generalizing s with
  | nil =>
    rw [splitOnChar, List.mem_singleton] at hs
    subst hs
    cases hc
  | cons d rest ih =>
    rw [splitOnChar] at hs
    by_cases h : d = sep
    · rw [if_pos h] at hs
      rcases List.mem_cons.mp hs with h1 | h1
      · subst h1; cases hc
      · exact List.mem_cons_of_mem _ (ih h1 hc)
    · rw [if_neg h] at hs
      rcases hr : splitOnChar sep rest with _ | ⟨t, ts⟩
      · exact absurd hr (splitOnChar_ne_nil sep rest)
      · rw [hr] at hs
        rcases List.mem_cons.mp hs with h1 | h1
        · subst h1
          rcases List.mem_cons.mp hc with h2 | h2
          · subst h2; exact List.mem_cons_self _ _
          · exact List.mem_cons_of_mem _ (ih (hr ▸ List.mem_cons_self t ts) h2)
        · exact List.mem_cons_of_mem _ (ih (hr ▸ List.mem_cons_of_mem t h1) hc)

theorem splitOnChar_no_sep {sep : Char} {s : List Char} (h : sep ∉ s) :
    splitOnChar sep s = [s] := by
  induction s with
  | nil => rfl
  | cons c cs ih =>
    have hc : c ≠ sep := fun he => h (he ▸ List.mem_cons_self c cs)
    have hcs : sep ∉ cs := fun hm => h (List.mem_cons_of_mem _ hm)
    rw [splitOnChar]
    rw [if_neg (fun he => hc he), ih hcs]

theorem splitOnChar_append_sep {sep : Char} {s rest : List Char}
    (h : sep ∉ s) :
    splitOnChar sep (s ++ sep :: rest) = s :: splitOnChar sep rest := by
  induction s with
  | nil =>
    rw [List.nil_append, splitOnChar]
    rw [if_pos rfl]
  | cons c cs ih =>
    have hc : c ≠ sep := fun he => h (he ▸ List.mem_cons_self c cs)
    have hcs : sep ∉ cs := fun hm => h (List.mem_cons_of_mem _ hm)
    rw [List.cons_append, splitOnChar]
    rw [if_neg (fun he => hc he), ih hcs]

theorem splitOnChar_joinChar {sep : Char} (parts : List (List Char))
    (hne : parts ≠ []) (hnm : ∀ s ∈ parts, sep ∉ s) :
    splitOnChar sep (joinChar sep parts) = parts := by
  induction parts with
  | nil => exact absurd rfl hne
  | cons s rest ih =>
    rcases rest with _ | ⟨t, ts⟩
    · exact splitOnChar_no_sep (hnm s (List.mem_cons_self _ _))
    · have hjoin : joinChar sep (s :: t :: ts) = s ++ sep :: joinChar sep (t :: ts) := rfl
      rw [hjoin, splitOnChar_append_sep (hnm s (List.mem_cons_self _ _))]
      rw [ih (by simp) (fun u hu => hnm u (List.mem_cons_of_mem _ hu))]

theorem mem_joinChar {sep : Char} {parts : List (List Char)} {c : Char}
    (h : c ∈ joinChar sep parts) : c = sep ∨ ∃ s ∈ parts, c ∈ s := by
  induction parts with
  | nil => cases h
  | cons s rest ih =>
    rcases rest with _ | ⟨t, ts⟩
    · exact Or.inr ⟨s, List.mem_cons_self _ _, h⟩
    · have hjoin : joinChar sep (s :: t :: ts) = s ++ sep :: joinChar sep (t :: ts) := rfl
      rw [hjoin] at h
      rcases List.mem_append.mp h with h1 | h1
      · exact Or.inr ⟨s, List.mem_cons_self _ _, h1⟩
      · rcases List.mem_cons.mp h1 with h2 | h2
        · exact Or.inl h2
        · rcases ih h2 with h3 | ⟨u, hu, hcu⟩
          · exact Or.inl h3
          · exact Or.inr ⟨u, List.mem_cons_of_mem _ hu, hcu⟩

theorem uncUpper_ne_nil {parts : List (List Char)} (h : parts ≠ []) :
    uncUpper parts ≠ [] := by
  rcases parts with _ | ⟨a, _ | ⟨b, rest⟩⟩
  · exact absurd rfl h
  · simp [uncUpper]
  · simp [uncUpper]

theorem uncUpper_idem (parts : List (List Char)) :
    uncUpper (uncUpper parts) = uncUpper parts := by
  rcases parts with _ | ⟨a, _ | ⟨b, rest⟩⟩
  · rfl
  · simp only [uncUpper, map_toUpper_idem]
  · simp only [uncUpper, map_toUpper_idem]

theorem uncUpper_not_mem {parts : List (List Char)} {d : Char}
    (hd : d.toNat < 65 ∨ 90 < d.toNat) (h : ∀ s ∈ parts, d ∉ s) :
    ∀ s ∈ uncUpper parts, d ∉ s := by
  have hup : ∀ (x : List Char), d ∉ x → d ∉ x.map Char.toUpper := by
    intro x hx hmem
    obtain ⟨y, hy, hye⟩ := List.mem_map.mp hmem
    have hyd : y ≠ d := fun he => hx (he ▸ hy)
    exact toUpper_ne_special hyd hd hye
  rcases parts with _ | ⟨a, _ | ⟨b, rest⟩⟩
  · intro s hs; cases hs
  · intro s hs
    rw [uncUpper, List.mem_singleton] at hs
    subst hs
    exact hup a (h a (List.mem_cons_self _ _))
  · intro s hs
    rw [uncUpper] at hs
    rcases List.mem_cons.mp hs with h1 | h1
    · subst h1
      exact hup a (h a (List.mem_cons_self _ _))
    · rcases List.mem_cons.mp h1 with h2 | h2
      · subst h2
        exact hup b (h b (List.mem_cons_of_mem _ (List.mem_cons_self _ _)))
      · exact h s (List.mem_cons_of_mem _ (List.mem_cons_of_mem _ h2))

theorem startsWithL_cons_ne {p c : Char} (ps cs : List Char) (h : p ≠ c) :
    startsWithL (p :: ps) (c :: cs) = false := by
  rw [startsWithL]
  simp [h]

theorem startsWithL_slash {t : List Char} :
    startsWithL ("/".toList) ('/' :: t) = true := by
  have e : ("/".toList) = ['/'] := rfl
  rw [e, startsWithL]
  simp [startsWithL]

theorem cp_file_uri_slash (env : PathEnv) {l : List Char}
    (h : ∃ t, l = '/' :: t) : cp_file_uri env l = l := by
  obtain ⟨t, ht⟩ := h
  subst ht
  have hsw : startsWithL ("file://".toList) ('/' :: t) = false := by
    have e : ("file://".toList) = 'f' :: "ile://".toList := rfl
    rw [e]
    exact startsWithL_cons_ne _ _ (by decide)
  rw [cp_file_uri, hsw]
  rfl

theorem cp_wsl_skip {l : List Char} (h : wslApplies l = false) :
    cp_wsl l = l := by
  rw [cp_wsl, h]
  rfl

theorem cp_absolute_slash (env : PathEnv) (hwin : env.isWindows = false)
    {l : List Char} (h : ∃ t, l = '/' :: t) : cp_absolute env l = l := by
  obtain ⟨t, ht⟩ := h
  subst ht
  have habs : pathIsAbsolute env ('/' :: t) = true := by
    rw [pathIsAbsolute, hwin]
    simp only [Bool.false_eq_true, if_false]
    exact startsWithL_slash
  rw [cp_absolute, habs]
  rfl

theorem cp_dunce_none (env : PathEnv)
    (hfs : ∀ s, env.fsCanonicalize s = none) (l : List Char) :
    cp_dunce env l = l := by
  rw [cp_dunce, hfs]
  rfl

theorem cp_slashes_eq_self {l : List Char} (h : ∀ c ∈ l, c ≠ '\\') :
    cp_slashes l = l := by
  rw [cp_slashes]
  exact map_replace_eq_self h

theorem cp_drive_nonwin (env : PathEnv) (hwin : env.isWindows = false)
    (l : List Char) : cp_drive env l = l := by
  rw [cp_drive.eq_def, hwin]
  rfl

theorem cp_unc_head {l : List Char} (h : ∃ t, l = '/' :: t) :
    ∃ u, cp_unc l = '/' :: u := by
  rw [cp_unc]
  by_cases h2 : startsWithL ("//".toList) l = true
  · rw [if_pos h2]
    exact ⟨_, rfl⟩
  · rw [if_neg h2]
    exact h

theorem cp_unc_no_bs {l : List Char} (h : ∀ c ∈ l, c ≠ '\\') :
    ∀ c ∈ cp_unc l, c ≠ '\\' := by
  rw [cp_unc]
  by_cases h2 : startsWithL ("//".toList) l = true
  · rw [if_pos h2]
    intro c hc
    rcases List.mem_cons.mp hc with h3 | h3
    · subst h3; decide
    · rcases List.mem_cons.mp h3 with h4 | h4
      · subst h4; decide
      · rcases mem_joinChar h4 with h5 | ⟨s, hs, hcs⟩
        · subst h5; decide
        · have hparts : ∀ s ∈ splitOnChar '/' (l.drop 2), '\\' ∉ s := by
            intro u hu hmem
            exact h '\\' (List.mem_of_mem_drop (mem_of_mem_splitOnChar hu hmem)) rfl
          have := uncUpper_not_mem (d := '\\') (by decide) hparts s hs
          intro he
          rw [he] at hcs
          exact this hcs
  · rw [if_neg h2]
    exact h

theorem cp_unc_cp_unc (l : List Char) : cp_unc (cp_unc l) = cp_unc l := by
  by_cases h : startsWithL ("//".toList) l = true
  · have e1 : cp_unc l
        = '/' :: '/' :: joinChar '/' (uncUpper (splitOnChar '/' (l.drop 2))) := by
      rw [cp_unc, if_pos h]
    rw [e1, cp_unc]
    have h2 : startsWithL ("//".toList)
        ('/' :: '/' :: joinChar '/' (uncUpper (splitOnChar '/' (l.drop 2)))) = true := by
      have e : ("//".toList) = ['/', '/'] := rfl
      rw [e]
      simp [startsWithL]
    rw [if_pos h2]
    have hparts0 : ∀ s ∈ splitOnChar '/' (l.drop 2), '/' ∉ s :=
      splitOnChar_not_mem '/' (l.drop 2)
    have hparts : ∀ s ∈ uncUpper (splitOnChar '/' (l.drop 2)), '/' ∉ s :=
      uncUpper_not_mem (d := '/') (by decide) hparts0
    have hne : uncUpper (splitOnChar '/' (l.drop 2)) ≠ [] :=
      uncUpper_ne_nil (splitOnChar_ne_nil '/' (l.drop 2))
    have hrt : splitOnChar '/'
        (joinChar '/' (uncUpper (splitOnChar '/' (l.drop 2))))
        = uncUpper (splitOnChar '/' (l.drop 2)) :=
      splitOnChar_joinChar _ hne hparts
    have hdrop : ('/' :: '/' :: joinChar '/'
        (uncUpper (splitOnChar '/' (l.drop 2)))).drop 2
        = joinChar '/' (uncUpper (splitOnChar '/' (l.drop 2))) := rfl
    rw [hdrop, hrt, uncUpper_idem]
  · have e1 : cp_unc l = l := by rw [cp_unc, if_neg h]
    rw [e1, cp_unc, if_neg h]

/-- The shape of every `canonicalize_path` output on a non-Windows
environment with an absolute current directory and an unresolvable
filesystem: the UNC pass applied to an absolute, backslash-free string. -/
theorem canonicalize_shape (env : PathEnv) (p : List Char)
    (hwin : env.isWindows = false)
    (hfs : ∀ s, env.fsCanonicalize s = none)
    (hcwd : ∃ t, env.cwd = '/' :: t) :
    ∃ r, canonicalize_path env p = cp_unc r ∧
      (∃ t, r = '/' :: t) ∧ (∀ c ∈ r, c ≠ '\\') := by
  obtain ⟨tc, htc⟩ := hcwd
  refine ⟨cp_slashes (cp_dunce env (cp_absolute env (cp_wsl (cp_file_uri env p)))),
    ?_, ?_, ?_⟩
  · rw [canonicalize_path,
      cp_drive_nonwin env hwin]
  · have habs : ∃ u, cp_absolute env (cp_wsl (cp_file_uri env p)) = '/' :: u := by
      rw [cp_absolute]
      by_cases h2 : pathIsAbsolute env (cp_wsl (cp_file_uri env p)) = true
      · rw [if_pos h2]
        rw [pathIsAbsolute, hwin] at h2
        simp only [Bool.false_eq_true, if_false] at h2
        rcases hw : cp_wsl (cp_file_uri env p) with _ | ⟨c, cs⟩
        · rw [hw] at h2
          cases h2
        · rw [hw] at h2
          have e : ("/".toList) = ['/'] := rfl
          rw [e, startsWithL] at h2
          simp only [Bool.and_eq_true, decide_eq_true_eq] at h2
          obtain ⟨hc2, _⟩ := h2
          exact ⟨cs, by rw [← hc2]⟩
      · rw [if_neg h2, pathJoin]
        rw [if_neg h2, htc]
        have hne : ('/' :: tc : List Char) ≠ [] := by simp
        rw [if_neg hne]
        by_cases h3 : ('/' :: tc : List Char).getLast? = some '/'
        · rw [if_pos h3]
          exact ⟨_, rfl⟩
        · rw [if_neg h3]
          exact ⟨_, rfl⟩
    obtain ⟨u, hu⟩ := habs
    rw [cp_dunce_none env hfs, hu, cp_slashes]
    refine ⟨u.map (fun c => if c = '\\' then '/' else c), ?_⟩
    rw [List.map_cons]
    rfl
  · rw [cp_slashes]
    exact map_replace_no_bs _

/-- C9, amended.  `canonicalize_path` is total by construction, but
idempotent only away from the WSL-translation trap: on a non-Windows
environment whose current directory is absolute and whose paths are
unresolvable on disk (the `dunce` fallback the claim's "unresolvable
absolute form" refers to), a second application is the identity *provided*
the first result does not itself match the `/mnt/<letter>/` guard —
`C9_counterexample` shows idempotence fails when it does. -/
theorem C9_idempotent_amended (env : PathEnv) (p : List Char)
    (hwin : env.isWindows = false)
    (hfs : ∀ s, env.fsCanonicalize s = none)
    (hcwd : ∃ t, env.cwd = '/' :: t)
    (hwsl : wslApplies (canonicalize_path env p) = false) :
    canonicalize_path env (canonicalize_path env p)
      = canonicalize_path env p := by
  obtain ⟨r, hq, hrhead, hrnb⟩ := canonicalize_shape env p hwin hfs hcwd
  have hqhead : ∃ u, canonicalize_path env p = '/' :: u := by
    rw [hq]
    exact cp_unc_head hrhead
  have hqnb : ∀ c ∈ canonicalize_path env p, c ≠ '\\' := by
    rw [hq]
    exact cp_unc_no_bs hrnb
  conv_lhs => rw [canonicalize_path]
  rw [cp_file_uri_slash env hqhead, cp_wsl_skip hwsl,
    cp_absolute_slash env hwin hqhead, cp_dunce_none env hfs,
    cp_slashes_eq_self hqnb, cp_drive_nonwin env hwin]
  conv_lhs => rw [hq]
  rw [cp_unc_cp_unc, ← hq]

/-- Witness for `C9_idempotent_amended` at a concrete environment and
path. -/
theorem C9_idempotent_amended_witness :
    canonicalize_path envPlain (canonicalize_path envPlain ("a.c".toList))
      = canonicalize_path envPlain ("a.c".toList) :=
  C9_idempotent_amended envPlain ("a.c".toList) rfl (fun _ => rfl)
    ⟨"home/u".toList, rfl⟩ (by decide)

end McuDebug
